import Mathlib

/-!
# Layout scheduler (src/layout/layout.h)

A shallow embedding of the classes `Layout`, `LayoutFactory` and `LayoutThread`.

* A `Layout*` is an address (`Ptr`); the objects that have been created with `new` and not yet
  destroyed with `delete` are the entries of `LayoutThread.heap`.
* `QMap` is an association list kept in ascending key order with unique keys.
* The worker thread is a program counter (`Worker`) stored in the state; `workerStep` performs one
  of its sections.  The `for` loop of `run` runs without the mutex, so every loop body is a section
  of its own and a call of the client can fall between two bodies of a pass; the evaluation of
  the loop condition and the locked block after the loop are sections too.  The delete loop at
  the end of `run` belongs to the section that leaves the `while` loop.
* A call of the client is one event; the sections of the worker fall between the calls, also
  for `remove`, which does not hold the mutex.
* `new` may return any address that is not live at that moment, also one that was deleted
  before; the address it returns is part of the `add` event.
* Calls that block (`QWaitCondition::wait`) are modelled for a single client thread: while the
  client waits only the worker runs.  A call that can never return yields `Outcome.blocked`;
  dereferencing or deleting a pointer that is no longer live yields `Outcome.undefined`.
-/

namespace Graphia

/-- ComponentId wraps an `int` (src/source/shared/graph/elementid.h). -/
abbrev ComponentId := Int

/-- The address of a `Layout` object. -/
abbrev Ptr := Nat

/-! ## QMap -/

/-- The model of `QMap<K, V>`: pairs in ascending key order. -/
abbrev QMap (K V : Type) := List (K × V)

namespace QMap

variable {K V : Type} [LinearOrder K]

/-- The model of `QMap::contains`. -/
def contains (m : QMap K V) (k : K) : Bool :=
  m.any (fun e => decide (e.1 = k))

/-- The stored value of a key, if any (`QMap::find`). -/
def find : QMap K V → K → Option V
  | [], _ => none
  | (k1, v) :: m, k => if k1 = k then some v else find m k

/-- The model of `QMap::insert`: replaces the value of an existing key, keeps key order. -/
def insert : QMap K V → K → V → QMap K V
  | [], k, v => [(k, v)]
  | (k1, v1) :: m, k, v =>
    if k < k1 then (k, v) :: (k1, v1) :: m
    else if k1 = k then (k, v) :: m
    else (k1, v1) :: insert m k v

/-- The model of `QMap::remove`. -/
def remove (m : QMap K V) (k : K) : QMap K V :=
  m.filter (fun e => !decide (e.1 = k))

/-- The model of `QMap::values`: the values in ascending key order. -/
def values (m : QMap K V) : List V :=
  m.map Prod.snd

/-- The model of `QMap::keys`. -/
def keys (m : QMap K V) : List K :=
  m.map Prod.fst

end QMap

/-! ## Layout -/

/-- The fields of a `Layout` object.  `_graph` is the component the instance is bound to, `state`
stands for the data members of the concrete subclass, and `executions` is a ghost counter of the
calls of `execute()`. -/
structure Layout where
  cancelAtomic : Int
  _graph : ComponentId
  _iterations : Int
  state : Nat
  executions : Nat
deriving DecidableEq, Repr

/-- The sentinel `Layout::Unbounded`. -/
def Layout.Unbounded : Int := -1

/-- The model of `QAtomicInt::testAndSetRelaxed`, the new value of the atomic. -/
def testAndSetRelaxed (current expectedValue newValue : Int) : Int :=
  if current = expectedValue then newValue else current

/-- The model of `Layout::setCancel`. -/
def Layout.setCancel (l : Layout) (cancel : Bool) : Layout :=
  let expectedValue : Int := if !cancel then 1 else 0
  let newValue : Int := if cancel then 1 else 0
  { l with cancelAtomic := testAndSetRelaxed l.cancelAtomic expectedValue newValue }

/-- The model of `Layout::shouldCancel`: the result of `testAndSetRelaxed(1, 1)`. -/
def Layout.shouldCancel (l : Layout) : Bool :=
  decide (l.cancelAtomic = 1)

/-- The model of `Layout::cancel`. -/
def Layout.cancel (l : Layout) : Layout :=
  l.setCancel true

/-- The model of `Layout::iterations`. -/
def Layout.iterations (l : Layout) : Int :=
  l._iterations

/-- The model of `Layout::setIterations`. -/
def Layout.setIterations (l : Layout) (n : Int) : Layout :=
  { l with _iterations := n }

/-- The model of `Layout::iterative`. -/
def Layout.iterative (l : Layout) : Bool :=
  decide (l._iterations ≠ 1)

/-- The abstract `LayoutFactory` together with the virtual methods of the `Layout` subclass it
creates: the iteration count and subclass state an instance is constructed with, `executeReal`
and `shouldPause` (which the base class defines as `false`). -/
structure LayoutFactory where
  numIterations : ComponentId → Int
  initialState : ComponentId → Nat
  executeReal : Nat → Nat
  shouldPause : Nat → Bool

/-- The constructor `Layout::Layout`, as called by `LayoutFactory::create`. -/
def LayoutFactory.create (F : LayoutFactory) (componentId : ComponentId) : Layout :=
  { cancelAtomic := 0
    _graph := componentId
    _iterations := F.numIterations componentId
    state := F.initialState componentId
    executions := 0 }

/-- The model of `Layout::execute`: clears the cancellation flag, then runs `executeReal`. -/
def Layout.execute (F : LayoutFactory) (l : Layout) : Layout :=
  let l1 := l.setCancel false
  { l1 with state := F.executeReal l1.state, executions := l1.executions + 1 }

/-! ## LayoutThread -/

/-- Where the worker thread stands in `LayoutThread::run`. -/
inductive Worker where
  /-- The thread has not been started. -/
  | idle
  /-- At the loop head, about to evaluate `workRemaining()`. -/
  | running
  /-- Inside the `for` loop of a pass: `rest` are the elements of the list `layouts.values()`,
  taken when the loop was entered, that are still to be visited. -/
  | inPass (rest : List Ptr)
  /-- After the `for` loop of a pass, about to enter the locked block. -/
  | passDone
  /-- Blocked in `waitForResume.wait`. -/
  | parked
  /-- Woken from `waitForResume.wait`, about to test `_stop`. -/
  | woken
  /-- The function `run` has returned. -/
  | finished
deriving DecidableEq, Repr

/-- Where the worker stands when the `for` loop of a pass has the given elements left. -/
def Worker.loop (rest : List Ptr) : Worker :=
  match rest with
  | [] => .passDone
  | _ :: _ => .inPass rest

/-- The data members of `LayoutThread`, the live `Layout` objects and the worker. -/
structure LayoutThread where
  layouts : QMap ComponentId Ptr
  iterationsRemaining : QMap Ptr Int
  _pause : Bool
  _isPaused : Bool
  _stop : Bool
  heap : List (Ptr × Layout)
  worker : Worker
deriving DecidableEq, Repr

/-- The result of an event: the state it ends in, or the call never returns, or it has no
defined behaviour, or the event cannot occur at all. -/
inductive Outcome where
  | ok (s : LayoutThread)
  | blocked
  | undefined
  | excluded
deriving DecidableEq, Repr

/-- Sequencing of outcomes. -/
def Outcome.bind (r : Outcome) (f : LayoutThread → Outcome) : Outcome :=
  match r with
  | .ok s => f s
  | .blocked => .blocked
  | .undefined => .undefined
  | .excluded => .excluded

/-- The constructor `LayoutThread::LayoutThread`. -/
def LayoutThread.init : LayoutThread :=
  { layouts := []
    iterationsRemaining := []
    _pause := false
    _isPaused := false
    _stop := false
    heap := []
    worker := .idle }

/-- The live object at an address. -/
def LayoutThread.deref (s : LayoutThread) (p : Ptr) : Option Layout :=
  (s.heap.find? (fun e => decide (e.1 = p))).map Prod.snd

/-- Applies a member function to the object at an address (`layout->f()`). -/
def LayoutThread.update (s : LayoutThread) (p : Ptr) (f : Layout → Layout) : LayoutThread :=
  { s with heap := s.heap.map (fun e => if e.1 = p then (e.1, f e.2) else e) }

/-- The expression `delete layout`. -/
def LayoutThread.delete (s : LayoutThread) (p : Ptr) : Outcome :=
  match s.deref p with
  | none => .undefined
  | some _ => .ok { s with heap := s.heap.filter (fun e => !decide (e.1 = p)) }

/-- The expression `iterationsRemaining[layout]` read as a value (0 for an absent key). -/
def LayoutThread.remaining (s : LayoutThread) (p : Ptr) : Int :=
  (QMap.find s.iterationsRemaining p).getD 0

/-- The model of `QThread::start`: runs `run` from its beginning unless the thread is running. -/
def LayoutThread.start (s : LayoutThread) : LayoutThread :=
  match s.worker with
  | .idle => { s with worker := .running }
  | .finished => { s with worker := .running }
  | _ => s

/-- The model of `QWaitCondition::wakeAll` on `waitForResume`. -/
def LayoutThread.wakeWorker (s : LayoutThread) : LayoutThread :=
  match s.worker with
  | .parked => { s with worker := .woken }
  | _ => s

/-- The model of `LayoutThread::add`; `layout` is the address that `new` returns inside
`layoutFactory->create` when the call gets there. -/
def LayoutThread.add (F : LayoutFactory) (s : LayoutThread) (componentId : ComponentId)
    (layout : Ptr) : LayoutThread :=
  if !QMap.contains s.layouts componentId then
    let s1 := { s with heap := s.heap ++ [(layout, F.create componentId)] }
    let s2 := { s1 with layouts := QMap.insert s1.layouts componentId layout }
    let n := (F.create componentId).iterations
    let s3 := { s2 with iterationsRemaining := QMap.insert s2.iterationsRemaining layout n }
    s3.start
  else s

/-- The loop `for(Layout* layout : layouts.values()) layout->cancel();` over the given values. -/
def LayoutThread.cancelEach : List Ptr → LayoutThread → Outcome
  | [], s => .ok s
  | layout :: rest, s =>
    match s.deref layout with
    | none => .undefined
    | some _ => cancelEach rest (s.update layout Layout.cancel)

/-- The model of `LayoutThread::pause`. -/
def LayoutThread.pause (s : LayoutThread) : Outcome :=
  let s1 := { s with _pause := true }
  s1.cancelEach (QMap.values s1.layouts)

/-- The model of `LayoutThread::isPaused`. -/
def LayoutThread.isPaused (s : LayoutThread) : Bool :=
  s._isPaused

/-- The model of `LayoutThread::resume`. -/
def LayoutThread.resume (s : LayoutThread) : LayoutThread :=
  { s with _pause := false, _isPaused := false }.wakeWorker

/-- The model of `LayoutThread::stop`. -/
def LayoutThread.stop (s : LayoutThread) : Outcome :=
  let s1 := { s with _stop := true, _pause := false }
  (s1.cancelEach (QMap.values s1.layouts)).bind (fun s2 => .ok s2.wakeWorker)

/-- The model of `LayoutThread::workRemaining`. -/
def LayoutThread.workRemaining (s : LayoutThread) : Bool :=
  (QMap.values s.layouts).any (fun layout => decide (s.remaining layout ≠ 0))

/-- The loop of `LayoutThread::allLayoutAlgorithmsShouldPause` over the given values; `none` when
a pointer is not live. -/
def LayoutThread.allShouldPauseOf (F : LayoutFactory) (s : LayoutThread) : List Ptr → Option Bool
  | [] => some true
  | layout :: rest =>
    match s.deref layout with
    | none => none
    | some l => if !F.shouldPause l.state then some false else allShouldPauseOf F s rest

/-- The model of `LayoutThread::allLayoutAlgorithmsShouldPause`. -/
def LayoutThread.allLayoutAlgorithmsShouldPause (F : LayoutFactory) (s : LayoutThread) :
    Option Bool :=
  s.allShouldPauseOf F (QMap.values s.layouts)

/-- The body of the `for` loop of `LayoutThread::run` for one instance.  The counter is an `int`;
it is decremented whenever it differs from `Layout::Unbounded`, also when it is 0. -/
def LayoutThread.passStep (F : LayoutFactory) (s : LayoutThread) (layout : Ptr) : Outcome :=
  match s.deref layout with
  | none => .undefined
  | some l =>
    if F.shouldPause l.state then .ok s
    else
      let s1 := if s.remaining layout ≠ 0 then s.update layout (Layout.execute F) else s
      if s1.remaining layout ≠ Layout.Unbounded then
        .ok { s1 with iterationsRemaining :=
                QMap.insert s1.iterationsRemaining layout (s1.remaining layout - 1) }
      else .ok s1

/-- The `for` loop of `LayoutThread::run` over the given values. -/
def LayoutThread.passLoop (F : LayoutFactory) : List Ptr → LayoutThread → Outcome
  | [], s => .ok s
  | layout :: rest, s => (s.passStep F layout).bind (passLoop F rest)

/-- One pass: the `for` loop of `LayoutThread::run` over `layouts.values()`. -/
def LayoutThread.pass (F : LayoutFactory) (s : LayoutThread) : Outcome :=
  s.passLoop F (QMap.values s.layouts)

/-- The loop `for(Layout* layout : layouts.values()) delete layout;` over the given values. -/
def LayoutThread.deleteEach : List Ptr → LayoutThread → Outcome
  | [], s => .ok s
  | layout :: rest, s => (s.delete layout).bind (deleteEach rest)

/-- The end of `LayoutThread::run`: every instance is deleted, `layouts` itself is not touched,
and the thread ends. -/
def LayoutThread.exitRun (s : LayoutThread) : Outcome :=
  (s.deleteEach (QMap.values s.layouts)).bind (fun s1 => .ok { s1 with worker := .finished })

/-- The locked block at the end of a pass, up to the point where the worker blocks, leaves the
loop or goes back to the loop head. -/
def LayoutThread.endOfPass (F : LayoutFactory) (s : LayoutThread) : Outcome :=
  match (if s._pause then some true else s.allLayoutAlgorithmsShouldPause F) with
  | none => .undefined
  | some true => .ok { s with _isPaused := true, worker := .parked }
  | some false => if s._stop then s.exitRun else .ok { s with worker := .running }

/-- One section of the worker thread: the evaluation of the loop condition, which enters the
`for` loop over the list `layouts.values()` or leaves the `while` loop; one body of the `for`
loop; the locked block after it; or what follows the wake-up.  A thread that is not started,
is blocked or has ended does nothing. -/
def LayoutThread.workerStep (F : LayoutFactory) (s : LayoutThread) : Outcome :=
  match s.worker with
  | .running =>
    if s.workRemaining then .ok { s with worker := Worker.loop (QMap.values s.layouts) }
    else s.exitRun
  | .inPass [] => .ok { s with worker := .passDone }
  | .inPass (layout :: rest) =>
    (s.passStep F layout).bind (fun s1 => .ok { s1 with worker := Worker.loop rest })
  | .passDone => s.endOfPass F
  | .woken => if s._stop then s.exitRun else .ok { s with worker := .running }
  | _ => .ok s

/-- The call `waitForPause.wait(&mutex)` for a single client: the worker runs until it executes
`waitForPause.wakeAll()`, which it does when it parks.  A worker that is not started, already
blocked or ended never does. -/
def LayoutThread.waitForPauseWait (F : LayoutFactory) : Nat → LayoutThread → Outcome
  | 0, _ => .blocked
  | fuel + 1, s =>
    match s.worker with
    | .idle => .blocked
    | .parked => .blocked
    | .finished => .blocked
    | .passDone =>
      (s.workerStep F).bind
        (fun s1 => if s1.worker = .parked then .ok s1 else waitForPauseWait F fuel s1)
    | _ => (s.workerStep F).bind (waitForPauseWait F fuel)

/-- A bound on the number of sections after which a worker that finds `_pause` set has parked
or has ended. -/
def LayoutThread.sectionsToPark (s : LayoutThread) : Nat :=
  match s.worker with
  | .inPass rest => rest.length + 2
  | .running => (QMap.values s.layouts).length + 3
  | .woken => (QMap.values s.layouts).length + 4
  | _ => 1

/-- The model of `LayoutThread::pauseAndWait`.  With `_pause` set the worker parks at the first
end of a pass, which it reaches within `sectionsToPark` sections. -/
def LayoutThread.pauseAndWait (F : LayoutFactory) (s : LayoutThread) : Outcome :=
  let s1 := { s with _pause := true }
  (s1.cancelEach (QMap.values s1.layouts)).bind
    (fun s2 => waitForPauseWait F s2.sectionsToPark s2)

/-- The model of `LayoutThread::remove`. -/
def LayoutThread.remove (F : LayoutFactory) (s : LayoutThread) (componentId : ComponentId) :
    Outcome :=
  let resumeAfterRemoval := s.isPaused
  (if s.isPaused then s.pauseAndWait F else Outcome.ok s).bind fun s1 =>
  (if QMap.contains s1.layouts componentId then
    match QMap.find s1.layouts componentId with
    | none => Outcome.ok s1
    | some layout => LayoutThread.delete { s1 with layouts := QMap.remove s1.layouts componentId } layout
  else Outcome.ok s1).bind fun s2 =>
  .ok (if resumeAfterRemoval then s2.resume else s2)

/-- What can happen to a scheduler: a call of its public interface by the client, or one
section of the worker thread.  An `add` carries the address that `new` returns if the call
creates an instance. -/
inductive Event where
  | add (componentId : ComponentId) (layout : Ptr)
  | remove (componentId : ComponentId)
  | pause
  | pauseAndWait
  | resume
  | stop
  | work
deriving DecidableEq, Repr

/-- The effect of one event.  An `add` that creates an instance cannot occur with an address
that is live, since `new` does not return the address of a live object. -/
def LayoutThread.apply (F : LayoutFactory) (s : LayoutThread) : Event → Outcome
  | .add c p =>
    if !QMap.contains s.layouts c && (s.deref p).isSome then .excluded else .ok (s.add F c p)
  | .remove c => s.remove F c
  | .pause => s.pause
  | .pauseAndWait => s.pauseAndWait F
  | .resume => .ok s.resume
  | .stop => s.stop
  | .work => s.workerStep F

/-- The effect of a sequence of events. -/
def LayoutThread.run (F : LayoutFactory) : List Event → LayoutThread → Outcome
  | [], s => .ok s
  | e :: es, s => (s.apply F e).bind (run F es)

/-- The number of live instances created for a component. -/
def LayoutThread.liveInstances (s : LayoutThread) (c : ComponentId) : Nat :=
  (s.heap.filter (fun e => decide (e.2._graph = c))).length

/-- The number of `execute()` calls made so far on the instance at an address (0 when the
address is not live). -/
def LayoutThread.executions (s : LayoutThread) (p : Ptr) : Nat :=
  match s.deref p with
  | none => 0
  | some l => l.executions

/-- A property holds of the state a call returns in, if it returns. -/
def Outcome.All (P : LayoutThread → Prop) : Outcome → Prop
  | .ok s => P s
  | .blocked => True
  | .undefined => True
  | .excluded => True

/-- The invariant of the scheduler: no two live instances are bound to the same component, every
live instance is the one `layouts` holds for its component, a cancellation flag is 0 or 1, and
the keys of `layouts` are in strictly ascending order. -/
structure LayoutThread.Inv (s : LayoutThread) : Prop where
  graphs : (s.heap.map (fun e => e.2._graph)).Nodup
  linked : ∀ e ∈ s.heap, QMap.find s.layouts e.2._graph = some e.1
  flags : ∀ e ∈ s.heap, e.2.cancelAtomic = 0 ∨ e.2.cancelAtomic = 1
  ascending : (QMap.keys s.layouts).Pairwise (fun a b => a < b)

/-- A factory whose instances never report `shouldPause()`: one iteration for component 1, three
for every other component. -/
def boundedFactory : LayoutFactory :=
  { numIterations := fun c => if c = 1 then 1 else 3
    initialState := fun _ => 0
    executeReal := fun n => n + 1
    shouldPause := fun _ => false }

/-- A parked scheduler: add(1), pause(), then the worker makes its pass and parks. -/
def parkedExample : LayoutThread :=
  { layouts := [(1, 0)]
    iterationsRemaining := [(0, 0)]
    _pause := true
    _isPaused := true
    _stop := false
    heap := [(0, { cancelAtomic := 0, _graph := 1, _iterations := 1, state := 1, executions := 1 })]
    worker := .parked }

/-- A scheduler whose `_isPaused` is left set while the worker runs: add(1), a pass, remove(1),
the worker parks on the empty active set, stop() wakes it and it leaves the loop, then add(2)
and add(3) start the thread again. -/
def restartedExample : LayoutThread :=
  { layouts := [(2, 1), (3, 2)]
    iterationsRemaining := [(0, 0), (1, 3), (2, 3)]
    _pause := false
    _isPaused := true
    _stop := true
    heap := [(1, { cancelAtomic := 0, _graph := 2, _iterations := 3, state := 0, executions := 0 }),
             (2, { cancelAtomic := 0, _graph := 3, _iterations := 3, state := 0, executions := 0 })]
    worker := .running }

/-- A scheduler whose worker has left its loop: add(1), the pass, the end-of-pass block, and the
loop condition found false.  The instance is deleted; `layouts` still holds its address. -/
def exitedExample : LayoutThread :=
  { layouts := [(1, 0)]
    iterationsRemaining := [(0, 0)]
    _pause := false
    _isPaused := false
    _stop := false
    heap := []
    worker := .finished }

/-- The scheduler `exitedExample` after add(2), `new` returning the address 0 that the worker has
freed: two ComponentIds are tracked under one address, and the thread has been started again. -/
def aliasedExample : LayoutThread :=
  { layouts := [(1, 0), (2, 0)]
    iterationsRemaining := [(0, 3)]
    _pause := false
    _isPaused := false
    _stop := false
    heap := [(0, { cancelAtomic := 0, _graph := 2, _iterations := 3, state := 0, executions := 0 })]
    worker := .running }

/-- The state an outcome returns in (the initial state when the call does not return). -/
def Outcome.state : Outcome → LayoutThread
  | .ok s => s
  | .blocked => LayoutThread.init
  | .undefined => LayoutThread.init
  | .excluded => LayoutThread.init

/-- The default argument `defaultNumIterations = 1` of the constructor `Layout::Layout`. -/
def Layout.defaultNumIterations : Int := 1

/-- The constructor `Layout::Layout(graph, positions, defaultNumIterations)`; `state` stands for
what the constructor of the subclass adds. -/
def Layout.new (graph : ComponentId) (state : Nat) (numIterations : Int) : Layout :=
  { cancelAtomic := 0
    _graph := graph
    _iterations := numIterations
    state := state
    executions := 0 }

/-- The object after a call of `Layout::shouldCancel`, which performs `testAndSetRelaxed(1, 1)`
on the flag. -/
def Layout.afterShouldCancel (l : Layout) : Layout :=
  { l with cancelAtomic := testAndSetRelaxed l.cancelAtomic 1 1 }

/-- The object at the entry of `executeReal` inside `Layout::execute`. -/
def Layout.atExecuteReal (l : Layout) : Layout :=
  l.setCancel false

/-- The member functions of `Layout` that read or write the cancellation flag. -/
inductive FlagCall where
  | cancel
  | execute
  | shouldCancel
deriving DecidableEq, Repr

/-- The object after one call. -/
def Layout.call (F : LayoutFactory) (l : Layout) : FlagCall → Layout
  | .cancel => l.cancel
  | .execute => l.execute F
  | .shouldCancel => l.afterShouldCancel

/-- The object after a sequence of calls. -/
def Layout.calls (F : LayoutFactory) : List FlagCall → Layout → Layout
  | [], l => l
  | c :: cs, l => calls F cs (l.call F c)

/-- Whether the next section of the worker begins a pass: it stands at the loop head and
`workRemaining()` holds. -/
def LayoutThread.beginsPass (s : LayoutThread) : Bool :=
  decide (s.worker = .running) && s.workRemaining

/-- The number of passes the worker begins within its next `n` sections, no call of the client
coming in between. -/
def LayoutThread.passesWithin (F : LayoutFactory) : Nat → LayoutThread → Nat
  | 0, _ => 0
  | n + 1, s =>
    (if s.beginsPass then 1 else 0) +
      (match s.workerStep F with
        | .ok t => passesWithin F n t
        | .blocked => 0
        | .undefined => 0
        | .excluded => 0)

/-- The instance whose loop body the next section of the worker runs, if that section is a
loop body. -/
def LayoutThread.visiting (s : LayoutThread) : Option Ptr :=
  match s.worker with
  | .inPass (layout :: _) => some layout
  | _ => none

/-- The instances whose loop bodies the worker runs within its next `n` sections, in the order
in which it runs them, no call of the client coming in between. -/
def LayoutThread.visits (F : LayoutFactory) : Nat → LayoutThread → List Ptr
  | 0, _ => []
  | n + 1, s =>
    s.visiting.toList ++
      (match s.workerStep F with
        | .ok t => visits F n t
        | .blocked => []
        | .undefined => []
        | .excluded => [])

/-- The state after `n` passes of the worker loop, one after the other. -/
def LayoutThread.passes (F : LayoutFactory) : Nat → LayoutThread → Outcome
  | 0, s => .ok s
  | n + 1, s => (s.pass F).bind (passes F n)

/-- A factory whose instances never report `shouldPause()`: one iteration for component 1,
the count `Layout::Unbounded` for every other component. -/
def mixedFactory : LayoutFactory :=
  { numIterations := fun c => if c = 1 then 1 else Layout.Unbounded
    initialState := fun _ => 0
    executeReal := fun n => n + 1
    shouldPause := fun _ => false }

/-- A factory whose instances have the count `Layout::Unbounded` and report `shouldPause()`
as soon as they have been executed once. -/
def convergingFactory : LayoutFactory :=
  { numIterations := fun _ => Layout.Unbounded
    initialState := fun _ => 0
    executeReal := fun n => n + 1
    shouldPause := fun n => decide (1 ≤ n) }

/-! ## ForceDirectedLayout (src/source/app/layout/forcedirectedlayout.h) -/

/-- The enumeration `ForceDirectedLayout::ChangeDetectionPhase`. -/
inductive ChangeDetectionPhase where
  | Initial
  | FineTune
  | Oscillate
  | Finished
deriving DecidableEq, Repr

/-- The data members of `ForceDirectedLayout` that the convergence detector owns.  `R` stands
for `float`; a `CircularBuffer<float, N>` is the list of the samples it holds. -/
structure ForceDirectedLayout (R : Type) where
  _prevStdDevs : List R
  _prevAvgForces : List R
  _prevCaptureStdDevs : List R
  _changeDetectionPhase : ChangeDetectionPhase
  _forceStdDeviation : R
  _forceMean : R
  _prevUnstableStdDev : R
  _unstableIterationCount : Int
  _increasingStdDevIterationCount : Int

/-- The default member initialisers of `ForceDirectedLayout`: the state of a freshly constructed
instance. -/
def ForceDirectedLayout.new (R : Type) [Zero R] : ForceDirectedLayout R :=
  { _prevStdDevs := []
    _prevAvgForces := []
    _prevCaptureStdDevs := []
    _changeDetectionPhase := .Initial
    _forceStdDeviation := 0
    _forceMean := 0
    _prevUnstableStdDev := 0
    _unstableIterationCount := 0
    _increasingStdDevIterationCount := 0 }

/-- The model of `ForceDirectedLayout::finished`. -/
def ForceDirectedLayout.finished {R : Type} (l : ForceDirectedLayout R) : Bool :=
  decide (l._changeDetectionPhase = .Finished)

/-- Modelled from the spec: the override of `shouldPause()` for the force-directed algorithm
(the `Layout` base class this header derives from is not among the sources): in the phase
Finished `shouldPause()` returns true, which is what `finished()` reports. -/
def ForceDirectedLayout.shouldPause {R : Type} (l : ForceDirectedLayout R) : Bool :=
  l.finished

/-- Modelled from the spec: the body of `ForceDirectedLayout::unfinish`, which the header only
declares: it resets the phase to Initial and clears the sample buffers. -/
def ForceDirectedLayout.unfinish {R : Type} (l : ForceDirectedLayout R) : ForceDirectedLayout R :=
  { l with
    _changeDetectionPhase := .Initial
    _prevStdDevs := []
    _prevAvgForces := []
    _prevCaptureStdDevs := [] }

/-! ## UndirectedEdge (src/source/app/graph/mutablegraph.h) -/

/-- NodeId wraps an `int` (src/source/shared/graph/elementid.h). -/
abbrev NodeId := Int

/-- The data members of `UndirectedEdge`. -/
structure UndirectedEdge where
  lo : NodeId
  hi : NodeId
deriving DecidableEq, Repr

/-- The constructor `UndirectedEdge(a, b)`: `std::minmax(a, b)` is `(b, a)` when `b < a` and
`(a, b)` otherwise. -/
def UndirectedEdge.new (a b : NodeId) : UndirectedEdge :=
  if b < a then { lo := b, hi := a } else { lo := a, hi := b }

/-- The model of `UndirectedEdge::operator<`. -/
def UndirectedEdge.lt (e other : UndirectedEdge) : Bool :=
  if e.lo = other.lo then decide (e.hi < other.hi) else decide (e.lo < other.lo)

/-! ## QMap lemmas -/

namespace QMap

variable {K V : Type} [LinearOrder K]

theorem find_insert_self (m : QMap K V) (k : K) (v : V) : find (insert m k v) k = some v := by
  induction m with
  | nil => simp [insert, find]
  | cons e m ih =>
    obtain ⟨k1, v1⟩ := e
    simp only [insert]
    split_ifs with h1 h2
    · simp [find]
    · simp [find]
    · simp [find, h2, ih]

theorem find_insert_ne (m : QMap K V) (k k2 : K) (v : V) (h : k2 ≠ k) :
    find (insert m k v) k2 = find m k2 := by
  induction m with
  | nil => simp [insert, find, Ne.symm h]
  | cons e m ih =>
    obtain ⟨k1, v1⟩ := e
    simp only [insert]
    split_ifs with h1 h2
    · simp [find, Ne.symm h]
    · subst h2
      simp [find, Ne.symm h]
    · simp [find, ih]

theorem mem_insert (m : QMap K V) (k : K) (v : V) (e : K × V) (h : e ∈ insert m k v) :
    e = (k, v) ∨ e ∈ m := by
  induction m with
  | nil => simpa [insert] using h
  | cons e1 m ih =>
    obtain ⟨k1, v1⟩ := e1
    simp only [insert] at h
    split_ifs at h with h1 h2
    · simpa using h
    · rcases List.mem_cons.1 h with h | h
      · exact Or.inl h
      · exact Or.inr (List.mem_cons_of_mem _ h)
    · rcases List.mem_cons.1 h with h | h
      · exact Or.inr (h ▸ List.mem_cons_self _ _)
      · rcases ih h with h | h
        · exact Or.inl h
        · exact Or.inr (List.mem_cons_of_mem _ h)

theorem find_eq_none_of_not_contains (m : QMap K V) (k : K) (h : contains m k = false) :
    find m k = none := by
  induction m with
  | nil => rfl
  | cons e m ih =>
    obtain ⟨k1, v1⟩ := e
    simp only [contains, List.any_cons, Bool.or_eq_false_iff, decide_eq_false_iff_not] at h
    simp only [find, h.1, if_false]
    exact ih h.2

theorem contains_of_find (m : QMap K V) (k : K) (v : V) (h : find m k = some v) :
    contains m k = true := by
  by_contra hc
  rw [find_eq_none_of_not_contains m k (by simpa using hc)] at h
  exact Option.noConfusion h

theorem find_isSome_of_contains (m : QMap K V) (k : K) (h : contains m k = true) :
    ∃ v, find m k = some v := by
  induction m with
  | nil => simp [contains] at h
  | cons e m ih =>
    obtain ⟨k1, v1⟩ := e
    by_cases hk : k1 = k
    · exact ⟨v1, by simp [find, hk]⟩
    · simp only [contains, List.any_cons, hk, decide_False, Bool.false_or] at h
      obtain ⟨v, hv⟩ := ih h
      exact ⟨v, by simp [find, hk, hv]⟩

theorem find_remove_self (m : QMap K V) (k : K) : find (remove m k) k = none := by
  induction m with
  | nil => rfl
  | cons e m ih =>
    obtain ⟨k1, v1⟩ := e
    by_cases hk : k1 = k
    · simpa [remove, List.filter_cons, hk] using ih
    · simpa [remove, List.filter_cons, hk, find] using ih

theorem find_remove_ne (m : QMap K V) (k k2 : K) (h : k2 ≠ k) :
    find (remove m k) k2 = find m k2 := by
  induction m with
  | nil => rfl
  | cons e m ih =>
    obtain ⟨k1, v1⟩ := e
    by_cases hk : k1 = k
    · subst hk
      have hne : ¬ k1 = k2 := fun h2 => h h2.symm
      simpa [remove, List.filter_cons, find, hne] using ih
    · by_cases hk2 : k1 = k2
      · subst hk2
        simp [remove, List.filter_cons, hk, find]
      · simpa [remove, List.filter_cons, hk, find, hk2] using ih

theorem contains_remove_self (m : QMap K V) (k : K) : contains (remove m k) k = false := by
  simp [contains, remove]

theorem contains_insert_self (m : QMap K V) (k : K) (v : V) :
    contains (insert m k v) k = true :=
  contains_of_find _ _ v (find_insert_self m k v)

theorem mem_values_of_find (m : QMap K V) (k : K) (v : V) (h : find m k = some v) :
    v ∈ values m := by
  induction m with
  | nil => simp [find] at h
  | cons e m ih =>
    obtain ⟨k1, v1⟩ := e
    by_cases hk : k1 = k
    · simp only [find, hk, if_true, Option.some.injEq] at h
      simp [values, h]
    · simp only [find, hk, if_false] at h
      have := ih h
      simp only [values, List.map_cons, List.mem_cons] at this ⊢
      exact Or.inr this

theorem mem_of_find (m : QMap K V) (k : K) (v : V) (h : find m k = some v) : (k, v) ∈ m := by
  induction m with
  | nil => simp [find] at h
  | cons e m ih =>
    obtain ⟨k1, v1⟩ := e
    by_cases hk : k1 = k
    · simp only [find, hk, if_true, Option.some.injEq] at h
      simp [h, hk]
    · simp only [find, hk, if_false] at h
      exact List.mem_cons_of_mem _ (ih h)

theorem mem_values_insert (m : QMap K V) (k : K) (v x : V) (h : x ∈ values (insert m k v)) :
    x = v ∨ x ∈ values m := by
  obtain ⟨e, he, hx⟩ := List.mem_map.1 h
  rcases mem_insert m k v e he with h1 | h1
  · subst h1
    exact Or.inl hx.symm
  · exact Or.inr (List.mem_map.2 ⟨e, h1, hx⟩)

theorem values_insert_nodup (m : QMap K V) (k : K) (v : V) (h : (values m).Nodup)
    (hv : v ∉ values m) : (values (insert m k v)).Nodup := by
  induction m with
  | nil => simp [insert, values]
  | cons e m ih =>
    obtain ⟨k1, v1⟩ := e
    have hv1 : v ≠ v1 := fun h1 => hv (by simp [values, h1])
    have hvm : v ∉ values m := fun h1 => hv (by
      simp only [values, List.map_cons, List.mem_cons]
      exact Or.inr h1)
    have hnd : (values m).Nodup := (List.nodup_cons.1 h).2
    have hv1m : v1 ∉ values m := (List.nodup_cons.1 h).1
    simp only [insert]
    split_ifs with h1 h2
    · exact List.nodup_cons.2 ⟨hv, h⟩
    · exact List.nodup_cons.2 ⟨hvm, hnd⟩
    · refine List.nodup_cons.2 ⟨?_, ih hnd hvm⟩
      intro hmem
      rcases mem_values_insert m k v v1 hmem with h3 | h3
      · exact hv1 h3.symm
      · exact hv1m h3

theorem mem_keys_insert (m : QMap K V) (k : K) (v : V) (x : K) (h : x ∈ keys (insert m k v)) :
    x = k ∨ x ∈ keys m := by
  obtain ⟨e, he, hx⟩ := List.mem_map.1 h
  rcases mem_insert m k v e he with h1 | h1
  · subst h1
    exact Or.inl hx.symm
  · exact Or.inr (List.mem_map.2 ⟨e, h1, hx⟩)

/-- The sorted insertion keeps the keys in strictly ascending order. -/
theorem keys_insert_ascending (m : QMap K V) (k : K) (v : V)
    (h : (keys m).Pairwise (fun a b => a < b)) :
    (keys (insert m k v)).Pairwise (fun a b => a < b) := by
  induction m with
  | nil => simp [insert, keys]
  | cons e m ih =>
    obtain ⟨k1, v1⟩ := e
    have h1 : ∀ x ∈ keys m, k1 < x := (List.pairwise_cons.1 h).1
    have h2 : (keys m).Pairwise (fun a b => a < b) := (List.pairwise_cons.1 h).2
    simp only [insert]
    split_ifs with hlt heq
    · refine List.pairwise_cons.2 ⟨?_, h⟩
      intro x hx
      rcases List.mem_cons.1 hx with hx | hx
      · rw [hx]; exact hlt
      · exact lt_trans hlt (h1 x hx)
    · subst heq
      exact List.pairwise_cons.2 ⟨h1, h2⟩
    · refine List.pairwise_cons.2 ⟨?_, ih h2⟩
      intro x hx
      rcases mem_keys_insert m k v x hx with hx | hx
      · rw [hx]
        exact lt_of_le_of_ne (not_lt.1 hlt) heq
      · exact h1 x hx

end QMap

/-! ## Outcomes -/

theorem Outcome.All.bind {P Q : LayoutThread → Prop} {r : Outcome} {f : LayoutThread → Outcome}
    (h : r.All P) (hf : ∀ s, P s → (f s).All Q) : (r.bind f).All Q := by
  cases r with
  | ok s => exact hf s h
  | blocked => trivial
  | undefined => trivial
  | excluded => trivial

theorem Outcome.All.mono {P Q : LayoutThread → Prop} {r : Outcome}
    (h : r.All P) (hPQ : ∀ s, P s → Q s) : r.All Q := by
  cases r with
  | ok s => exact hPQ s h
  | blocked => trivial
  | undefined => trivial
  | excluded => trivial

theorem Outcome.All.of_eq {P : LayoutThread → Prop} {r : Outcome} {s : LayoutThread}
    (h : r.All P) (hr : r = .ok s) : P s := by
  subst hr
  exact h

theorem Outcome.bind_eq_ok {r : Outcome} {f : LayoutThread → Outcome} {s : LayoutThread}
    (h : r.bind f = .ok s) : ∃ s1, r = .ok s1 ∧ f s1 = .ok s := by
  cases r with
  | ok s1 => exact ⟨s1, rfl, h⟩
  | blocked => exact Outcome.noConfusion h
  | undefined => exact Outcome.noConfusion h
  | excluded => exact Outcome.noConfusion h

/-! ## The cancellation flag -/

theorem Layout.cancel_graph (l : Layout) : l.cancel._graph = l._graph := rfl

theorem Layout.execute_graph (F : LayoutFactory) (l : Layout) :
    (l.execute F)._graph = l._graph := rfl

theorem Layout.cancel_flag (l : Layout) (h : l.cancelAtomic = 0 ∨ l.cancelAtomic = 1) :
    l.cancel.cancelAtomic = 1 := by
  rcases h with h | h <;> simp [Layout.cancel, Layout.setCancel, testAndSetRelaxed, h]

theorem Layout.execute_flag (F : LayoutFactory) (l : Layout)
    (h : l.cancelAtomic = 0 ∨ l.cancelAtomic = 1) : (l.execute F).cancelAtomic = 0 := by
  rcases h with h | h <;> simp [Layout.execute, Layout.setCancel, testAndSetRelaxed, h]

/-! ## Preservation of the invariant -/

namespace LayoutThread

theorem Inv.congr {s t : LayoutThread} (h : s.Inv) (hh : t.heap = s.heap)
    (hl : t.layouts = s.layouts) : t.Inv := by
  obtain ⟨h1, h2, h3, h7⟩ := h
  constructor
  · rw [hh]; exact h1
  · rw [hh, hl]; exact h2
  · rw [hh]; exact h3
  · rw [hl]; exact h7

theorem Inv.update {s : LayoutThread} (h : s.Inv) (p : Ptr) (f : Layout → Layout)
    (hg : ∀ l, (f l)._graph = l._graph)
    (hf : ∀ l, (l.cancelAtomic = 0 ∨ l.cancelAtomic = 1) →
      ((f l).cancelAtomic = 0 ∨ (f l).cancelAtomic = 1)) : (s.update p f).Inv := by
  obtain ⟨h1, h2, h3, h7⟩ := h
  constructor
  · have : (s.update p f).heap.map (fun e => e.2._graph) = s.heap.map (fun e => e.2._graph) := by
      simp only [LayoutThread.update, List.map_map]
      apply List.map_congr_left
      intro e _
      by_cases he : e.1 = p <;> simp [he, hg]
    rw [this]; exact h1
  · intro e he
    simp only [LayoutThread.update, List.mem_map] at he
    obtain ⟨e0, he0, rfl⟩ := he
    have := h2 e0 he0
    by_cases hp : e0.1 = p <;> simpa [hp, hg, LayoutThread.update] using this
  · intro e he
    simp only [LayoutThread.update, List.mem_map] at he
    obtain ⟨e0, he0, rfl⟩ := he
    have := h3 e0 he0
    by_cases hp : e0.1 = p
    · simpa [hp] using hf _ this
    · simpa [hp] using this
  · exact h7

theorem Inv.delete {s : LayoutThread} (h : s.Inv) (p : Ptr) : (s.delete p).All Inv := by
  obtain ⟨h1, h2, h3, h7⟩ := h
  unfold LayoutThread.delete
  cases s.deref p with
  | none => trivial
  | some l =>
    refine ⟨?_, ?_, ?_, h7⟩
    · exact h1.sublist ((List.filter_sublist _).map _)
    · intro e he
      exact h2 e (List.mem_of_mem_filter he)
    · intro e he
      exact h3 e (List.mem_of_mem_filter he)

theorem Inv.cancelEach (ps : List Ptr) {s : LayoutThread} (h : s.Inv) :
    (s.cancelEach ps).All Inv := by
  induction ps generalizing s with
  | nil => exact h
  | cons p ps ih =>
    unfold LayoutThread.cancelEach
    cases s.deref p with
    | none => trivial
    | some l =>
      exact ih (h.update p Layout.cancel Layout.cancel_graph
        (fun l hl => Or.inr (Layout.cancel_flag l hl)))

theorem Inv.passStep (F : LayoutFactory) (p : Ptr) {s : LayoutThread} (h : s.Inv) :
    (s.passStep F p).All Inv := by
  have hu : (s.update p (Layout.execute F)).Inv :=
    h.update p _ (Layout.execute_graph F) (fun l hl => Or.inl (Layout.execute_flag F l hl))
  unfold LayoutThread.passStep
  cases s.deref p with
  | none => trivial
  | some l =>
    simp only
    split_ifs
    · exact h
    · exact hu.congr rfl rfl
    · exact hu
    · exact h.congr rfl rfl
    · exact h

theorem Inv.passLoop (F : LayoutFactory) (ps : List Ptr) {s : LayoutThread} (h : s.Inv) :
    (s.passLoop F ps).All Inv := by
  induction ps generalizing s with
  | nil => exact h
  | cons p ps ih => exact (h.passStep F p).bind (fun _ h1 => ih h1)

theorem Inv.deleteEach (ps : List Ptr) {s : LayoutThread} (h : s.Inv) :
    (s.deleteEach ps).All Inv := by
  induction ps generalizing s with
  | nil => exact h
  | cons p ps ih => exact (h.delete p).bind (fun _ h1 => ih h1)

theorem Inv.exitRun {s : LayoutThread} (h : s.Inv) : s.exitRun.All Inv :=
  (h.deleteEach _).bind (fun _ h1 => h1.congr rfl rfl)

theorem Inv.endOfPass (F : LayoutFactory) {s : LayoutThread} (h : s.Inv) :
    (s.endOfPass F).All Inv := by
  unfold LayoutThread.endOfPass
  split
  · trivial
  · exact h.congr rfl rfl
  · split_ifs
    · exact h.exitRun
    · exact h.congr rfl rfl

theorem Inv.workerStep (F : LayoutFactory) {s : LayoutThread} (h : s.Inv) :
    (s.workerStep F).All Inv := by
  unfold LayoutThread.workerStep
  split
  · split_ifs
    · exact h.congr rfl rfl
    · exact h.exitRun
  · exact h.congr rfl rfl
  · exact (h.passStep F _).bind (fun _ h1 => h1.congr rfl rfl)
  · exact h.endOfPass F
  · split_ifs
    · exact h.exitRun
    · exact h.congr rfl rfl
  · exact h

theorem Inv.waitForPauseWait (F : LayoutFactory) (fuel : Nat) {s : LayoutThread} (h : s.Inv) :
    (waitForPauseWait F fuel s).All Inv := by
  induction fuel generalizing s with
  | zero => trivial
  | succ n ih =>
    unfold LayoutThread.waitForPauseWait
    split
    · trivial
    · trivial
    · trivial
    · refine (h.workerStep F).bind (fun s1 h1 => ?_)
      split_ifs
      · exact h1
      · exact ih h1
    · exact (h.workerStep F).bind (fun _ h1 => ih h1)

theorem Inv.pauseAndWait (F : LayoutFactory) {s : LayoutThread} (h : s.Inv) :
    (s.pauseAndWait F).All Inv :=
  (Inv.cancelEach _ (h.congr rfl rfl : Inv { s with _pause := true })).bind
    (fun _ h1 => h1.waitForPauseWait F _)

theorem Inv.pause {s : LayoutThread} (h : s.Inv) : s.pause.All Inv :=
  Inv.cancelEach _ (h.congr rfl rfl : Inv { s with _pause := true })

theorem Inv.wakeWorker {s : LayoutThread} (h : s.Inv) : s.wakeWorker.Inv := by
  unfold LayoutThread.wakeWorker
  split
  · exact h.congr rfl rfl
  · exact h

theorem Inv.start {s : LayoutThread} (h : s.Inv) : s.start.Inv := by
  unfold LayoutThread.start
  split
  · exact h.congr rfl rfl
  · exact h.congr rfl rfl
  · exact h

theorem Inv.resume {s : LayoutThread} (h : s.Inv) : s.resume.Inv :=
  Inv.wakeWorker (h.congr rfl rfl : Inv { s with _pause := false, _isPaused := false })

theorem Inv.stop {s : LayoutThread} (h : s.Inv) : s.stop.All Inv :=
  (Inv.cancelEach _ (h.congr rfl rfl : Inv { s with _stop := true, _pause := false })).bind
    (fun _ h1 => h1.wakeWorker)

theorem Inv.init : LayoutThread.init.Inv := by
  constructor <;> simp [LayoutThread.init, QMap.keys]

theorem Inv.add (F : LayoutFactory) (c : ComponentId) (p : Ptr) {s : LayoutThread}
    (h : s.Inv) : (s.add F c p).Inv := by
  unfold LayoutThread.add
  by_cases hc : QMap.contains s.layouts c = true
  · simpa [hc] using h
  · have hc2 : QMap.contains s.layouts c = false := by simpa using hc
    simp only [hc2, Bool.not_false, if_true]
    apply Inv.start
    obtain ⟨h1, h2, h3, h7⟩ := h
    have hne : ∀ e ∈ s.heap, e.2._graph ≠ c := by
      intro e he hec
      have := QMap.contains_of_find _ _ _ (h2 e he)
      rw [hec, hc2] at this
      exact Bool.noConfusion this
    constructor
    · simp only [List.map_append, List.map_cons, List.map_nil]
      refine List.Nodup.append h1 (List.nodup_singleton _) ?_
      intro g hg1 hg2
      obtain ⟨e, he, rfl⟩ := List.mem_map.1 hg1
      exact hne e he (by simpa [LayoutFactory.create] using hg2)
    · intro e he
      rcases List.mem_append.1 he with he | he
      · show QMap.find (QMap.insert s.layouts c p) e.2._graph = some e.1
        rw [QMap.find_insert_ne _ _ _ _ (hne e he)]
        exact h2 e he
      · have : e = (p, F.create c) := by simpa using he
        subst this
        exact QMap.find_insert_self _ _ _
    · intro e he
      rcases List.mem_append.1 he with he | he
      · exact h3 e he
      · have : e = (p, F.create c) := by simpa using he
        subst this
        exact Or.inl rfl
    · exact QMap.keys_insert_ascending _ _ _ h7

theorem Inv.erase {s : LayoutThread} (h : s.Inv) (c : ComponentId) (p : Ptr)
    (hp : QMap.find s.layouts c = some p) :
    (LayoutThread.delete { s with layouts := QMap.remove s.layouts c } p).All Inv := by
  obtain ⟨h1, h2, h3, h7⟩ := h
  unfold LayoutThread.delete
  split
  · trivial
  · constructor
    · exact h1.sublist ((List.filter_sublist _).map _)
    · intro e he
      have hmem : e ∈ s.heap := List.mem_of_mem_filter he
      have hne : e.1 ≠ p := by simpa using (List.mem_filter.1 he).2
      have hg : e.2._graph ≠ c := by
        intro hec
        have := h2 e hmem
        rw [hec, hp] at this
        exact hne (Option.some.inj this).symm
      show QMap.find (QMap.remove s.layouts c) e.2._graph = some e.1
      rw [QMap.find_remove_ne _ _ _ hg]
      exact h2 e hmem
    · intro e he
      exact h3 e (List.mem_of_mem_filter he)
    · exact h7.sublist ((List.filter_sublist _).map _)

theorem Inv.remove (F : LayoutFactory) (c : ComponentId) {s : LayoutThread} (h : s.Inv) :
    (s.remove F c).All Inv := by
  unfold LayoutThread.remove
  have h1 : (if s.isPaused then s.pauseAndWait F else Outcome.ok s).All Inv := by
    split_ifs
    · exact h.pauseAndWait F
    · exact h
  refine h1.bind (fun s1 hs1 => Outcome.All.bind (P := Inv) ?_ ?_)
  · split_ifs
    · split
      · exact hs1
      · next p hp => exact hs1.erase c p hp
    · exact hs1
  · intro s2 hs2
    show Inv (if s.isPaused then s2.resume else s2)
    split_ifs
    · exact hs2.resume
    · exact hs2

theorem Inv.apply (F : LayoutFactory) (e : Event) {s : LayoutThread} (h : s.Inv) :
    (s.apply F e).All Inv := by
  cases e with
  | add c p =>
    show (if !QMap.contains s.layouts c && (s.deref p).isSome then Outcome.excluded
      else Outcome.ok (s.add F c p)).All Inv
    split_ifs
    · trivial
    · exact h.add F c p
  | remove c => exact h.remove F c
  | pause => exact h.pause
  | pauseAndWait => exact h.pauseAndWait F
  | resume => exact h.resume
  | stop => exact h.stop
  | work => exact h.workerStep F

theorem Inv.run (F : LayoutFactory) (es : List Event) {s : LayoutThread} (h : s.Inv) :
    (s.run F es).All Inv := by
  induction es generalizing s with
  | nil => exact h
  | cons e es ih => exact (h.apply F e).bind (fun _ h1 => ih h1)

/-- Every state the scheduler reaches from its construction satisfies the invariant. -/
theorem Inv.reachable (F : LayoutFactory) (es : List Event) (s : LayoutThread)
    (h : LayoutThread.init.run F es = .ok s) : s.Inv :=
  (Inv.init.run F es).of_eq h

end LayoutThread

/-! ## What the worker and the cancellation loop leave alone -/

namespace LayoutThread

theorem cancelEach_layouts (ps : List Ptr) (s : LayoutThread) :
    (s.cancelEach ps).All (fun t => t.layouts = s.layouts) := by
  induction ps generalizing s with
  | nil => exact rfl
  | cons p ps ih =>
    unfold LayoutThread.cancelEach
    cases s.deref p with
    | none => trivial
    | some l => exact ih (s.update p Layout.cancel)

theorem passStep_layouts (F : LayoutFactory) (p : Ptr) (s : LayoutThread) :
    (s.passStep F p).All (fun t => t.layouts = s.layouts) := by
  unfold LayoutThread.passStep
  cases s.deref p with
  | none => trivial
  | some l =>
    simp only
    split_ifs <;> exact rfl

theorem passLoop_layouts (F : LayoutFactory) (ps : List Ptr) (s : LayoutThread) :
    (s.passLoop F ps).All (fun t => t.layouts = s.layouts) := by
  induction ps generalizing s with
  | nil => exact rfl
  | cons p ps ih =>
    exact (passStep_layouts F p s).bind (fun s1 h1 => (ih s1).mono (fun t ht => ht.trans h1))

theorem deleteEach_layouts (ps : List Ptr) (s : LayoutThread) :
    (s.deleteEach ps).All (fun t => t.layouts = s.layouts) := by
  induction ps generalizing s with
  | nil => exact rfl
  | cons p ps ih =>
    have hd : (s.delete p).All (fun t => t.layouts = s.layouts) := by
      unfold LayoutThread.delete
      cases s.deref p with
      | none => trivial
      | some l => exact rfl
    exact hd.bind (fun s1 h1 => (ih s1).mono (fun t ht => ht.trans h1))

theorem exitRun_layouts (s : LayoutThread) :
    s.exitRun.All (fun t => t.layouts = s.layouts) :=
  (deleteEach_layouts _ s).bind (fun _ h1 => h1)

theorem endOfPass_layouts (F : LayoutFactory) (s : LayoutThread) :
    (s.endOfPass F).All (fun t => t.layouts = s.layouts) := by
  unfold LayoutThread.endOfPass
  split
  · trivial
  · exact rfl
  · split_ifs
    · exact exitRun_layouts s
    · exact rfl

theorem workerStep_layouts (F : LayoutFactory) (s : LayoutThread) :
    (s.workerStep F).All (fun t => t.layouts = s.layouts) := by
  unfold LayoutThread.workerStep
  split
  · split_ifs
    · exact rfl
    · exact exitRun_layouts s
  · exact rfl
  · exact (passStep_layouts F _ s).bind (fun _ h1 => h1)
  · exact endOfPass_layouts F s
  · split_ifs
    · exact exitRun_layouts s
    · exact rfl
  · exact rfl

theorem waitForPauseWait_layouts (F : LayoutFactory) (fuel : Nat) (s : LayoutThread) :
    (waitForPauseWait F fuel s).All (fun t => t.layouts = s.layouts) := by
  induction fuel generalizing s with
  | zero => trivial
  | succ n ih =>
    unfold LayoutThread.waitForPauseWait
    split
    · trivial
    · trivial
    · trivial
    · refine (workerStep_layouts F s).bind (fun s1 h1 => ?_)
      split_ifs
      · exact h1
      · exact (ih s1).mono (fun t ht => ht.trans h1)
    · exact (workerStep_layouts F s).bind
        (fun s1 h1 => (ih s1).mono (fun t ht => ht.trans h1))

theorem pauseAndWait_layouts (F : LayoutFactory) (s : LayoutThread) :
    (s.pauseAndWait F).All (fun t => t.layouts = s.layouts) :=
  (cancelEach_layouts _ { s with _pause := true }).bind
    (fun s1 h1 => (waitForPauseWait_layouts F _ s1).mono (fun _ ht => ht.trans h1))

theorem passStep_pause (F : LayoutFactory) (p : Ptr) (s : LayoutThread) :
    (s.passStep F p).All (fun t => t._pause = s._pause) := by
  unfold LayoutThread.passStep
  cases s.deref p with
  | none => trivial
  | some l =>
    simp only
    split_ifs <;> exact rfl

theorem passLoop_pause (F : LayoutFactory) (ps : List Ptr) (s : LayoutThread) :
    (s.passLoop F ps).All (fun t => t._pause = s._pause) := by
  induction ps generalizing s with
  | nil => exact rfl
  | cons p ps ih =>
    exact (passStep_pause F p s).bind (fun s1 h1 => (ih s1).mono (fun t ht => ht.trans h1))

theorem deleteEach_pause (ps : List Ptr) (s : LayoutThread) :
    (s.deleteEach ps).All (fun t => t._pause = s._pause) := by
  induction ps generalizing s with
  | nil => exact rfl
  | cons p ps ih =>
    have hd : (s.delete p).All (fun t => t._pause = s._pause) := by
      unfold LayoutThread.delete
      cases s.deref p with
      | none => trivial
      | some l => exact rfl
    exact hd.bind (fun s1 h1 => (ih s1).mono (fun t ht => ht.trans h1))

theorem exitRun_worker (s : LayoutThread) : s.exitRun.All (fun t => t.worker = .finished) := by
  unfold LayoutThread.exitRun
  cases s.deleteEach (QMap.values s.layouts) with
  | ok s1 => exact rfl
  | blocked => trivial
  | undefined => trivial
  | excluded => trivial

theorem waitForPauseWait_finished (F : LayoutFactory) (n : Nat) (s : LayoutThread)
    (hw : s.worker = .finished) : waitForPauseWait F (n + 1) s = .blocked := by
  unfold LayoutThread.waitForPauseWait
  simp [hw]

theorem waitForPauseWait_passDone (F : LayoutFactory) (n : Nat) (s : LayoutThread)
    (hw : s.worker = .passDone) (hp : s._pause = true) :
    waitForPauseWait F (n + 1) s = .ok { s with _isPaused := true, worker := .parked } := by
  unfold LayoutThread.waitForPauseWait
  simp [hw, LayoutThread.workerStep, LayoutThread.endOfPass, hp, Outcome.bind]

theorem exitRun_then_wait (F : LayoutFactory) (n : Nat) (s : LayoutThread) :
    s.exitRun.bind (waitForPauseWait F (n + 1)) = s.exitRun.bind (fun _ => .blocked) := by
  have h := exitRun_worker s
  cases hr : s.exitRun with
  | ok s1 =>
    rw [hr] at h
    exact waitForPauseWait_finished F n s1 h
  | blocked => rfl
  | undefined => rfl
  | excluded => rfl

theorem Worker.loop_ne_running (rest : List Ptr) : Worker.loop rest ≠ .running := by
  cases rest <;> exact fun h => Worker.noConfusion h

theorem Worker.loop_ne_woken (rest : List Ptr) : Worker.loop rest ≠ .woken := by
  cases rest <;> exact fun h => Worker.noConfusion h

theorem sectionsToPark_loop (s : LayoutThread) (rest : List Ptr) :
    LayoutThread.sectionsToPark { s with worker := Worker.loop rest } ≤ rest.length + 2 := by
  cases rest with
  | nil => exact Nat.le_add_left _ _
  | cons p ps => exact Nat.le_refl _

/-- With the pause request set, a section of a worker that is in its loop keeps the request
and brings the worker nearer to the end of the pass. -/
theorem workerStep_toPark (F : LayoutFactory) (s : LayoutThread) (hp : s._pause = true)
    (hw : s.worker = .running ∨ s.worker = .woken ∨ ∃ rest, s.worker = .inPass rest) :
    (s.workerStep F).All
      (fun t => t._pause = true ∧ t.sectionsToPark + 1 ≤ s.sectionsToPark) := by
  have hx : s.exitRun.All (fun t => t._pause = true ∧ t.sectionsToPark = 1) := by
    refine (deleteEach_pause _ s).bind (fun s1 h1 => ?_)
    exact ⟨h1.trans hp, rfl⟩
  rcases hw with hw | hw | ⟨rest, hw⟩
  · unfold LayoutThread.workerStep
    simp only [hw]
    split_ifs
    · refine ⟨hp, ?_⟩
      have h1 := sectionsToPark_loop s (QMap.values s.layouts)
      have h2 : s.sectionsToPark = (QMap.values s.layouts).length + 3 := by
        simp only [LayoutThread.sectionsToPark, hw]
      exact h2 ▸ Nat.succ_le_succ h1
    · refine hx.mono (fun t ht => ⟨ht.1, ?_⟩)
      rw [ht.2]
      simp only [LayoutThread.sectionsToPark, hw]
      omega
  · unfold LayoutThread.workerStep
    simp only [hw]
    split_ifs
    · refine hx.mono (fun t ht => ⟨ht.1, ?_⟩)
      rw [ht.2]
      simp only [LayoutThread.sectionsToPark, hw]
      omega
    · refine ⟨hp, ?_⟩
      simp only [LayoutThread.sectionsToPark, hw]
      omega
  · unfold LayoutThread.workerStep
    cases rest with
    | nil =>
      simp only [hw]
      refine ⟨hp, ?_⟩
      simp only [LayoutThread.sectionsToPark, hw, List.length_nil]
      omega
    | cons q rest =>
      simp only [hw]
      refine (passStep_pause F q s).bind (fun s1 h1 => ?_)
      have h2 := sectionsToPark_loop s1 rest
      have h3 : s.sectionsToPark = rest.length + 3 := by
        simp only [LayoutThread.sectionsToPark, hw, List.length_cons]
      exact ⟨h1.trans hp, h3 ▸ Nat.succ_le_succ h2⟩

theorem waitForPauseWait_active (F : LayoutFactory) (n : Nat) (s : LayoutThread)
    (hw : s.worker = .running ∨ s.worker = .woken ∨ ∃ rest, s.worker = .inPass rest) :
    waitForPauseWait F (n + 1) s = (s.workerStep F).bind (waitForPauseWait F n) := by
  conv_lhs => unfold LayoutThread.waitForPauseWait
  rcases hw with hw | hw | ⟨rest, hw⟩ <;> simp only [hw]

theorem sectionsToPark_pos (s : LayoutThread) : 1 ≤ s.sectionsToPark := by
  unfold LayoutThread.sectionsToPark
  split <;> omega

/-- With the pause request set, one more unit of fuel does not change the outcome of the wait
in `pauseAndWait` once the fuel is at least `sectionsToPark`. -/
theorem waitForPauseWait_succ (F : LayoutFactory) (k : Nat) (s : LayoutThread)
    (hp : s._pause = true) (hk : s.sectionsToPark ≤ k) :
    waitForPauseWait F (k + 1) s = waitForPauseWait F k s := by
  induction k generalizing s with
  | zero =>
    have := sectionsToPark_pos s
    omega
  | succ k ih =>
    cases hw : s.worker with
    | idle => unfold LayoutThread.waitForPauseWait; simp [hw]
    | parked => unfold LayoutThread.waitForPauseWait; simp [hw]
    | finished => unfold LayoutThread.waitForPauseWait; simp [hw]
    | passDone =>
      rw [waitForPauseWait_passDone F (k + 1) s hw hp, waitForPauseWait_passDone F k s hw hp]
    | running =>
      have ha : s.worker = .running ∨ s.worker = .woken ∨ ∃ rest, s.worker = .inPass rest :=
        Or.inl hw
      have hstep := workerStep_toPark F s hp ha
      rw [waitForPauseWait_active F (k + 1) s ha, waitForPauseWait_active F k s ha]
      cases hs : s.workerStep F with
      | ok t =>
        rw [hs] at hstep
        exact ih t hstep.1 (by have := hstep.2; omega)
      | blocked => rfl
      | undefined => rfl
      | excluded => rfl
    | woken =>
      have ha : s.worker = .running ∨ s.worker = .woken ∨ ∃ rest, s.worker = .inPass rest :=
        Or.inr (Or.inl hw)
      have hstep := workerStep_toPark F s hp ha
      rw [waitForPauseWait_active F (k + 1) s ha, waitForPauseWait_active F k s ha]
      cases hs : s.workerStep F with
      | ok t =>
        rw [hs] at hstep
        exact ih t hstep.1 (by have := hstep.2; omega)
      | blocked => rfl
      | undefined => rfl
      | excluded => rfl
    | inPass rest =>
      have ha : s.worker = .running ∨ s.worker = .woken ∨ ∃ rest, s.worker = .inPass rest :=
        Or.inr (Or.inr ⟨rest, hw⟩)
      have hstep := workerStep_toPark F s hp ha
      rw [waitForPauseWait_active F (k + 1) s ha, waitForPauseWait_active F k s ha]
      cases hs : s.workerStep F with
      | ok t =>
        rw [hs] at hstep
        exact ih t hstep.1 (by have := hstep.2; omega)
      | blocked => rfl
      | undefined => rfl
      | excluded => rfl

/-- With the pause request set, the wait in `pauseAndWait` is decided within `sectionsToPark`
sections of the worker: more fuel gives the same outcome. -/
theorem waitForPauseWait_fuel (F : LayoutFactory) (n : Nat) (s : LayoutThread)
    (hp : s._pause = true) :
    waitForPauseWait F (n + s.sectionsToPark) s = waitForPauseWait F s.sectionsToPark s := by
  induction n with
  | zero => rw [Nat.zero_add]
  | succ n ih =>
    rw [Nat.add_right_comm, waitForPauseWait_succ F _ s hp (Nat.le_add_left _ _), ih]

/-- The heap after `cancel()` has been called on each of the given addresses. -/
theorem cancelEach_eq (ps : List Ptr) (s : LayoutThread)
    (h : ∀ p ∈ ps, (s.deref p).isSome = true) :
    s.cancelEach ps =
      .ok { s with
        heap := s.heap.map (fun e => if e.1 ∈ ps then (e.1, e.2.cancel) else e) } := by
  induction ps generalizing s with
  | nil => simp [LayoutThread.cancelEach]
  | cons p ps ih =>
    unfold LayoutThread.cancelEach
    obtain ⟨l, hl⟩ := Option.isSome_iff_exists.1 (h p (List.mem_cons_self _ _))
    rw [hl]
    simp only
    have hlive : ∀ q ∈ ps, ((s.update p Layout.cancel).deref q).isSome = true := by
      intro q hq
      have := h q (List.mem_cons_of_mem _ hq)
      unfold LayoutThread.deref at this ⊢
      simp only [LayoutThread.update, Option.isSome_map', List.find?_isSome] at this ⊢
      obtain ⟨e, he, heq⟩ := this
      refine ⟨_, List.mem_map_of_mem _ he, ?_⟩
      by_cases hp : e.1 = p <;> simpa [hp] using heq
    rw [ih _ hlive]
    simp only [LayoutThread.update, List.map_map]
    congr 2
    apply List.map_congr_left
    intro e _
    have hidem : e.2.cancel.cancel = e.2.cancel := by
      simp only [Layout.cancel, Layout.setCancel, testAndSetRelaxed]
      by_cases h0 : e.2.cancelAtomic = 0 <;> simp [h0]
    by_cases hp : e.1 = p
    · by_cases hq : e.1 ∈ ps <;> simp [hp, hq, hidem]
    · by_cases hq : e.1 ∈ ps <;> simp [hp, hq]

theorem mem_heap_of_deref (s : LayoutThread) (p : Ptr) (l : Layout) (h : s.deref p = some l) :
    (p, l) ∈ s.heap := by
  unfold LayoutThread.deref at h
  obtain ⟨e, he, hel⟩ := Option.map_eq_some'.1 h
  have h1 := List.mem_of_find?_eq_some he
  have h2 : e.1 = p := by simpa using List.find?_some he
  obtain ⟨a, b⟩ := e
  simp only at h2 hel
  subst h2 hel
  exact h1

theorem deref_map_heap (s : LayoutThread) (g : Layout → Layout) (q : Ptr → Prop)
    [DecidablePred q] (p : Ptr) :
    LayoutThread.deref
        { s with heap := s.heap.map (fun e => if q e.1 then (e.1, g e.2) else e) } p =
      (s.deref p).map (fun l => if q p then g l else l) := by
  unfold LayoutThread.deref
  simp only
  induction s.heap with
  | nil => rfl
  | cons e es ih =>
    by_cases hp : e.1 = p
    · subst hp
      by_cases hq : q e.1 <;> simp [List.find?, hq]
    · by_cases hq : q e.1 <;> simpa [List.find?, hq, hp] using ih

theorem deref_filter_self (s : LayoutThread) (p : Ptr) :
    LayoutThread.deref { s with heap := s.heap.filter (fun e => !decide (e.1 = p)) } p = none := by
  unfold LayoutThread.deref
  rw [Option.map_eq_none', List.find?_eq_none]
  intro e he
  simpa using (List.mem_filter.1 he).2

theorem deref_filter_ne (s : LayoutThread) (p q : Ptr) (h : q ≠ p) :
    LayoutThread.deref { s with heap := s.heap.filter (fun e => !decide (e.1 = p)) } q =
      s.deref q := by
  unfold LayoutThread.deref
  simp only
  induction s.heap with
  | nil => rfl
  | cons e es ih =>
    obtain ⟨a, l⟩ := e
    by_cases hp : a = p
    · subst hp
      have hq : ¬ a = q := fun hq => h hq.symm
      simpa [List.filter_cons, List.find?, hq] using ih
    · by_cases hq : a = q
      · subst hq
        simp [List.filter_cons, hp, List.find?]
      · simpa [List.filter_cons, hp, List.find?, hq] using ih

end LayoutThread

/-! ## The worker loop and the iteration counters -/

/-- C1, evaluated on the code: component 1 is registered with the bounded count 1 and component 2
with the count 3, neither instance ever reports `shouldPause()`, and no cancel, pause or stop is
issued.  After three passes the instance of component 1 has been executed twice and its counter
holds `Layout::Unbounded`: the pass decrements a counter that is already 0. -/
theorem run_executes_bounded_instance_again :
    (boundedFactory.create 1).iterations = 1 ∧
    ∃ s, LayoutThread.init.run boundedFactory
        ([.add 1 0, .add 2 1] ++ List.replicate 11 .work) = .ok s ∧
      QMap.find s.layouts 1 = some 0 ∧ s.executions 0 = 2 ∧
      s.remaining 0 = Layout.Unbounded ∧ s._pause = false ∧ s._stop = false :=
  ⟨rfl, _, rfl, rfl, rfl, rfl, rfl, rfl⟩

/-! ## One instance per component -/

theorem LayoutThread.Inv.liveInstances_le_one {s : LayoutThread} (h : s.Inv) (c : ComponentId) :
    s.liveInstances c ≤ 1 := by
  have h1 := List.nodup_iff_count_le_one.1 h.graphs c
  have h2 : s.liveInstances c = (s.heap.map (fun e => e.2._graph)).count c := by
    unfold LayoutThread.liveInstances
    rw [List.count, List.countP_map, List.countP_eq_length_filter]
    congr 2
  omega

/-- C2: in every state reached from the construction of the scheduler by calls of add, remove,
pause, pauseAndWait, resume and stop interleaved with sections of the worker, at most one live
instance is bound to any ComponentId. -/
theorem at_most_one_live_instance (F : LayoutFactory) (es : List Event) (s : LayoutThread)
    (c : ComponentId) (h : LayoutThread.init.run F es = .ok s) : s.liveInstances c ≤ 1 :=
  (LayoutThread.Inv.reachable F es s h).liveInstances_le_one c

theorem at_most_one_live_instance_witness :
    LayoutThread.init.run boundedFactory
        [.add 1 0, .add 2 1, .add 1 2, .work, .work, .pause, .add 3 2, .work] =
        .ok (LayoutThread.init.run boundedFactory
          [.add 1 0, .add 2 1, .add 1 2, .work, .work, .pause, .add 3 2, .work]).state ∧
      (LayoutThread.init.run boundedFactory
        [.add 1 0, .add 2 1, .add 1 2, .work, .work, .pause, .add 3 2, .work]).state.liveInstances
          1 ≤ 1 :=
  ⟨rfl, at_most_one_live_instance boundedFactory
    [.add 1 0, .add 2 1, .add 1 2, .work, .work, .pause, .add 3 2, .work] _ 1 rfl⟩

/-! ## add -/

theorem LayoutThread.add_of_contains (F : LayoutFactory) (s : LayoutThread) (c : ComponentId)
    (p : Ptr) (h : QMap.contains s.layouts c = true) : s.add F c p = s := by
  simp [LayoutThread.add, h]

theorem LayoutThread.add_layouts (F : LayoutFactory) (s : LayoutThread) (c : ComponentId)
    (p : Ptr) (h : QMap.contains s.layouts c = false) :
    (s.add F c p).layouts = QMap.insert s.layouts c p := by
  simp only [LayoutThread.add, h, Bool.not_false, if_true, LayoutThread.start]
  split <;> rfl

theorem LayoutThread.add_heap (F : LayoutFactory) (s : LayoutThread) (c : ComponentId)
    (p : Ptr) (h : QMap.contains s.layouts c = false) :
    (s.add F c p).heap = s.heap ++ [(p, F.create c)] := by
  simp only [LayoutThread.add, h, Bool.not_false, if_true, LayoutThread.start]
  split <;> rfl

theorem LayoutThread.add_iterationsRemaining (F : LayoutFactory) (s : LayoutThread)
    (c : ComponentId) (p : Ptr) (h : QMap.contains s.layouts c = false) :
    (s.add F c p).iterationsRemaining =
      QMap.insert s.iterationsRemaining p (F.create c).iterations := by
  simp only [LayoutThread.add, h, Bool.not_false, if_true, LayoutThread.start]
  split <;> rfl

theorem LayoutThread.contains_add (F : LayoutFactory) (s : LayoutThread) (c : ComponentId)
    (p : Ptr) : QMap.contains (s.add F c p).layouts c = true := by
  by_cases h : QMap.contains s.layouts c = true
  · rw [LayoutThread.add_of_contains F s c p h]; exact h
  · rw [LayoutThread.add_layouts F s c p (by simpa using h)]
    exact QMap.contains_insert_self _ _ _

/-- C3: when c is already tracked, add(c) returns the scheduler unchanged in every field (no
instance is created, the active set and the counters are the same); hence add(c); add(c) is the
same as add(c), and for an untracked c the two calls create one instance, tracked under c. -/
theorem add_idempotent (F : LayoutFactory) (s : LayoutThread) (c : ComponentId) (p p2 : Ptr) :
    (QMap.contains s.layouts c = true → s.add F c p = s) ∧
    (s.add F c p).add F c p2 = s.add F c p ∧
    (QMap.contains s.layouts c = false →
      ((s.add F c p).add F c p2).heap = s.heap ++ [(p, F.create c)] ∧
      QMap.find ((s.add F c p).add F c p2).layouts c = some p) := by
  have h2 : (s.add F c p).add F c p2 = s.add F c p :=
    LayoutThread.add_of_contains F _ c p2 (LayoutThread.contains_add F s c p)
  refine ⟨LayoutThread.add_of_contains F s c p, h2, fun h => ?_⟩
  rw [h2, LayoutThread.add_heap F s c p h, LayoutThread.add_layouts F s c p h]
  exact ⟨rfl, QMap.find_insert_self _ _ _⟩

theorem add_idempotent_witness :
    (QMap.contains (LayoutThread.init.add boundedFactory 1 0).layouts 1 = true →
      (LayoutThread.init.add boundedFactory 1 0).add boundedFactory 1 1 =
        LayoutThread.init.add boundedFactory 1 0) ∧
    QMap.contains (LayoutThread.init.add boundedFactory 1 0).layouts 1 = true ∧
    QMap.contains LayoutThread.init.layouts 1 = false ∧
    ((LayoutThread.init.add boundedFactory 1 0).add boundedFactory 1 1).heap =
      [(0, boundedFactory.create 1)] :=
  ⟨(add_idempotent boundedFactory (LayoutThread.init.add boundedFactory 1 0) 1 1 2).1, rfl, rfl,
    ((add_idempotent boundedFactory LayoutThread.init 1 0 1).2.2 rfl).1⟩

theorem LayoutThread.deref_add_of_ne (F : LayoutFactory) (s : LayoutThread) (c : ComponentId)
    (p q : Ptr) (hc : QMap.contains s.layouts c = false) (hq : q ≠ p) :
    (s.add F c p).deref q = s.deref q := by
  unfold LayoutThread.deref
  rw [LayoutThread.add_heap F s c p hc, List.find?_append]
  have : List.find? (fun e => decide (e.1 = q)) [(p, F.create c)] = none := by
    simp [List.find?, Ne.symm hq]
  rw [this, Option.or_none]

theorem LayoutThread.deref_add_self (F : LayoutFactory) (s : LayoutThread) (c : ComponentId)
    (p : Ptr) (hc : QMap.contains s.layouts c = false) (h0 : s.deref p = none) :
    (s.add F c p).deref p = some (F.create c) := by
  unfold LayoutThread.deref at h0 ⊢
  rw [LayoutThread.add_heap F s c p hc, List.find?_append]
  rw [Option.map_eq_none'] at h0
  rw [h0]
  simp [List.find?]

/-- What add(c) does for an untracked c when `new` returns the address p, not live before: one
instance is created, `create(c)`, tracked under c with a counter equal to its `iterations()`;
every other ComponentId is mapped to the same address as before, and an address other than p
keeps its object and its counter.  Nothing is said of another ComponentId whose address is p. -/
theorem LayoutThread.add_frame (F : LayoutFactory) (s : LayoutThread) (c : ComponentId)
    (p : Ptr) (hc : QMap.contains s.layouts c = false) (h0 : s.deref p = none) :
    (s.add F c p).heap = s.heap ++ [(p, F.create c)] ∧
    QMap.find (s.add F c p).layouts c = some p ∧
    (s.add F c p).deref p = some (F.create c) ∧
    (s.add F c p).remaining p = (F.create c).iterations ∧
    (∀ c2 : ComponentId, c2 ≠ c →
      QMap.find (s.add F c p).layouts c2 = QMap.find s.layouts c2) ∧
    ∀ q : Ptr, q ≠ p →
      (s.add F c p).deref q = s.deref q ∧ (s.add F c p).remaining q = s.remaining q := by
  refine ⟨LayoutThread.add_heap F s c p hc, ?_, LayoutThread.deref_add_self F s c p hc h0,
    ?_, ?_, ?_⟩
  · rw [LayoutThread.add_layouts F s c p hc]
    exact QMap.find_insert_self _ _ _
  · unfold LayoutThread.remaining
    rw [LayoutThread.add_iterationsRemaining F s c p hc, QMap.find_insert_self]
    rfl
  · intro c2 hne
    rw [LayoutThread.add_layouts F s c p hc]
    exact QMap.find_insert_ne _ _ _ _ hne
  · intro q hq
    refine ⟨LayoutThread.deref_add_of_ne F s c p q hc hq, ?_⟩
    unfold LayoutThread.remaining
    rw [LayoutThread.add_iterationsRemaining F s c p hc, QMap.find_insert_ne _ _ _ _ hq]

/-- C4, evaluated on the code.  `exitedExample` is reached by add(1) and the worker running
until it leaves its loop: ComponentId 1 is still tracked, under the address 0 of the instance
that the worker has deleted, with the counter 0, and ComponentId 2 is not tracked.  The address
0 is free, so `new` may return it again.  Then add(2) leaves ComponentId 1 mapped to the address
0, where the instance of component 2 now lives, and with the counter 3 of that instance. -/
theorem add_changes_other_component :
    LayoutThread.init.run boundedFactory [.add 1 0, .work, .work, .work, .work] =
      .ok exitedExample ∧
    QMap.contains exitedExample.layouts 2 = false ∧ exitedExample.deref 0 = none ∧
    QMap.find exitedExample.layouts 1 = some 0 ∧ exitedExample.remaining 0 = 0 ∧
    exitedExample.apply boundedFactory (.add 2 0) = .ok aliasedExample ∧
    QMap.find aliasedExample.layouts 1 = some 0 ∧
    aliasedExample.deref 0 = some (boundedFactory.create 2) ∧
    aliasedExample.remaining 0 = 3 :=
  ⟨rfl, rfl, rfl, rfl, rfl, rfl, rfl, rfl, rfl⟩

/-! ## The active set after the worker loop -/

/-- C5, evaluated on the code: after add(1) of an instance with one iteration the worker makes
its pass, passes the end-of-pass block, finds no work remaining and leaves the loop, deleting
the instance.  ComponentId 1 is still in `layouts` although no live instance exists for it. -/
theorem tracked_without_instance_after_exit :
    ∃ s, LayoutThread.init.run boundedFactory [.add 1 0, .work, .work, .work, .work] = .ok s ∧
      s.worker = .finished ∧ QMap.contains s.layouts 1 = true ∧ s.liveInstances 1 = 0 ∧
      s.heap = [] :=
  ⟨_, rfl, rfl, rfl, rfl, rfl⟩

/-! ## remove -/

/-- C6, evaluated on the code.  `parkedExample` is reached by add(1), pause() and the worker
parking; ComponentId 2 is not tracked there.  remove(2) finds `isPaused()` true and calls
`pauseAndWait()`, which waits for a signal the parked worker never sends: the call does not
return.  In `restartedExample` (also reachable, `isPaused()` true, 5 untracked) remove(5) does
return, after a worker pass and with `_isPaused` cleared by `resume()`. -/
theorem remove_untracked_while_paused :
    LayoutThread.init.run boundedFactory [.add 1 0, .pause, .work, .work, .work] =
      .ok parkedExample ∧
    QMap.contains parkedExample.layouts 2 = false ∧ parkedExample.isPaused = true ∧
    parkedExample.remove boundedFactory 2 = .blocked ∧
    LayoutThread.init.run boundedFactory
      [.add 1 0, .work, .work, .remove 1, .work, .stop, .work, .add 2 1, .add 3 2] =
        .ok restartedExample ∧
    QMap.contains restartedExample.layouts 5 = false ∧ restartedExample.isPaused = true ∧
    ∃ s, restartedExample.remove boundedFactory 5 = .ok s ∧ s.isPaused = false ∧
      s.iterationsRemaining ≠ restartedExample.iterationsRemaining :=
  ⟨rfl, rfl, rfl, rfl, rfl, rfl, rfl, _, rfl, rfl, by decide⟩

/-- C7, evaluated on the code.  In the parked `parkedExample` remove(1) of the tracked
component calls `pauseAndWait()` and does not return; in `restartedExample`, where `isPaused()`
is true as well, remove(2) returns with `resume()` issued: `isPaused()` is false afterwards and
the worker has been woken.  In a running scheduler (after add(2)) remove(2) issues no
`resume()`: a pause request made before the call is still set afterwards. -/
theorem remove_resumes_paused_scheduler :
    parkedExample.isPaused = true ∧ QMap.contains parkedExample.layouts 1 = true ∧
    parkedExample.remove boundedFactory 1 = .blocked ∧
    restartedExample.isPaused = true ∧ QMap.contains restartedExample.layouts 2 = true ∧
    (∃ s, restartedExample.remove boundedFactory 2 = .ok s ∧ s.isPaused = false ∧
      s._pause = false ∧ s.worker = .woken) ∧
    ∃ s0 s1 s2, LayoutThread.init.run boundedFactory [.add 2 0, .work, .work, .work] = .ok s0 ∧
      s0.isPaused = false ∧ s0.pause = .ok s1 ∧ s1.remove boundedFactory 2 = .ok s2 ∧
      s2._pause = true ∧ s2.worker = .running :=
  ⟨rfl, rfl, rfl, rfl, rfl, ⟨_, rfl, rfl, rfl, rfl⟩, _, _, _, rfl, rfl, rfl, rfl, rfl, rfl⟩

/-- C9, evaluated on the code.  After add(2) and one pass the worker is at the head of its loop
with work remaining and `isPaused()` is false.  remove(2) then erases and deletes the instance
at once: no pause request is made, the worker is not parked before, during or after the call. -/
theorem remove_erases_while_worker_runs :
    ∃ s0 s1, LayoutThread.init.run boundedFactory [.add 2 0, .work, .work, .work] = .ok s0 ∧
      s0.worker = .running ∧ s0.workRemaining = true ∧ s0.isPaused = false ∧
      (s0.deref 0).isSome = true ∧
      s0.remove boundedFactory 2 = .ok s1 ∧
      s1.deref 0 = none ∧ QMap.contains s1.layouts 2 = false ∧
      s1.worker = .running ∧ s1._pause = false ∧ s1.isPaused = false :=
  ⟨_, _, rfl, rfl, rfl, rfl, rfl, rfl, rfl, rfl, rfl, rfl, rfl⟩

/-- What remove(c) does when `isPaused()` is false, c is tracked under the address p of a live
instance and no other ComponentId is tracked under p: the call returns; afterwards c is not
tracked and its instance is destroyed, every other ComponentId is tracked with the same address
and the same object as before, no other object is touched, and the counters and the worker are
as before. -/
theorem LayoutThread.remove_of_running (F : LayoutFactory) (s : LayoutThread) (c : ComponentId)
    (p : Ptr) (hz : s.isPaused = false) (hp : QMap.find s.layouts c = some p)
    (hl : (s.deref p).isSome = true)
    (hd : ∀ c2 q, c2 ≠ c → QMap.find s.layouts c2 = some q → q ≠ p) :
    ∃ t, s.remove F c = .ok t ∧
      QMap.contains t.layouts c = false ∧ t.deref p = none ∧
      (∀ c2 q, c2 ≠ c → QMap.find s.layouts c2 = some q →
        QMap.find t.layouts c2 = some q ∧ t.deref q = s.deref q) ∧
      (∀ q, q ≠ p → t.deref q = s.deref q) ∧
      t.iterationsRemaining = s.iterationsRemaining ∧ t.worker = s.worker := by
  obtain ⟨l, hl⟩ := Option.isSome_iff_exists.1 hl
  have hrem : s.remove F c = .ok
      { s with layouts := QMap.remove s.layouts c,
               heap := s.heap.filter (fun e => !decide (e.1 = p)) } := by
    unfold LayoutThread.remove
    have hd : LayoutThread.deref { s with layouts := QMap.remove s.layouts c } p = some l := hl
    simp only [hz, Bool.false_eq_true, if_false, Outcome.bind, QMap.contains_of_find _ _ _ hp,
      if_true, hp, LayoutThread.delete, hd]
  refine ⟨_, hrem, QMap.contains_remove_self _ _, LayoutThread.deref_filter_self _ p, ?_, ?_,
    rfl, rfl⟩
  · intro c2 q hc2 hq
    refine ⟨?_, LayoutThread.deref_filter_ne _ p q (hd c2 q hc2 hq)⟩
    rw [← hq]
    exact QMap.find_remove_ne _ _ _ hc2
  · intro q hq
    exact LayoutThread.deref_filter_ne _ p q hq

/-- C8, evaluated on the code.  `aliasedExample` is reached by add(1), the worker running until
it leaves its loop, and add(2) with `new` returning the address 0 of the instance the worker has
deleted: ComponentIds 1 and 2 are both tracked under the address 0, where the live instance of
component 2 is, and `isPaused()` is false.  remove(1) returns and destroys that instance:
afterwards ComponentId 2 is still tracked, no live instance exists for it, and nothing is live
at its address.  In the parked `parkedExample` remove(1) of the tracked component does not
return, so it erases nothing. -/
theorem remove_destroys_other_instance :
    LayoutThread.init.run boundedFactory [.add 1 0, .work, .work, .work, .work, .add 2 0] =
      .ok aliasedExample ∧
    aliasedExample.isPaused = false ∧
    QMap.find aliasedExample.layouts 1 = some 0 ∧ QMap.find aliasedExample.layouts 2 = some 0 ∧
    aliasedExample.deref 0 = some (boundedFactory.create 2) ∧
    aliasedExample.liveInstances 2 = 1 ∧
    (∃ t, aliasedExample.remove boundedFactory 1 = .ok t ∧
      QMap.contains t.layouts 1 = false ∧ QMap.find t.layouts 2 = some 0 ∧
      t.deref 0 = none ∧ t.liveInstances 2 = 0) ∧
    QMap.contains parkedExample.layouts 1 = true ∧
    parkedExample.remove boundedFactory 1 = .blocked :=
  ⟨rfl, rfl, rfl, rfl, rfl, rfl, ⟨_, rfl, rfl, rfl, rfl, rfl⟩, rfl, rfl⟩

/-! ## pause -/

/-- What pause() does in a state whose tracked addresses are live and whose cancellation flags
are 0 or 1: it returns with the pause request set and with `shouldCancel()` true for every
tracked instance; the active set, the counters, the stop flag, the flag reported by
`isPaused()` and the worker are as before. -/
theorem LayoutThread.pause_of_live (s : LayoutThread)
    (hf : ∀ e ∈ s.heap, e.2.cancelAtomic = 0 ∨ e.2.cancelAtomic = 1)
    (hl : ∀ p ∈ QMap.values s.layouts, (s.deref p).isSome = true) :
    ∃ t, s.pause = .ok t ∧ t._pause = true ∧
      (∀ p ∈ QMap.values s.layouts, ∃ l, t.deref p = some l ∧ l.shouldCancel = true) ∧
      t.layouts = s.layouts ∧ t.iterationsRemaining = s.iterationsRemaining ∧
      t._stop = s._stop ∧ t.isPaused = s.isPaused ∧ t.worker = s.worker := by
  have heq := LayoutThread.cancelEach_eq (QMap.values s.layouts) { s with _pause := true } hl
  refine ⟨_, heq, rfl, ?_, rfl, rfl, rfl, rfl, rfl⟩
  intro p hp
  obtain ⟨l, hlp⟩ := Option.isSome_iff_exists.1 (hl p hp)
  refine ⟨l.cancel, ?_, ?_⟩
  · have := LayoutThread.deref_map_heap { s with _pause := true } Layout.cancel
      (fun a => a ∈ QMap.values s.layouts) p
    rw [this]
    have hd : LayoutThread.deref { s with _pause := true } p = some l := hlp
    simp [hd, hp]
  · have hflag := Layout.cancel_flag l (hf (p, l) (LayoutThread.mem_heap_of_deref s p l hlp))
    simp [Layout.shouldCancel, hflag]

/-- C10, evaluated on the code.  In `exitedExample`, reached by add(1) and the worker running
until it leaves its loop, ComponentId 1 is tracked under the address of an instance that the
worker has deleted; pause() calls `cancel()` through that pointer, which has no defined
behaviour.  And where pause() does set the flags, they need not stay set: after add(2) and the
worker entering its pass, pause() sets the flag of the instance, and the loop body the worker
runs next clears it in `execute()`, the pause request still being set. -/
theorem pause_after_exit_undefined :
    LayoutThread.init.run boundedFactory [.add 1 0, .work, .work, .work, .work] =
      .ok exitedExample ∧
    QMap.values exitedExample.layouts = [0] ∧ exitedExample.deref 0 = none ∧
    exitedExample.pause = .undefined ∧
    ∃ s t, LayoutThread.init.run boundedFactory [.add 2 0, .work, .pause] = .ok s ∧
      (s.deref 0).map Layout.shouldCancel = some true ∧
      s.workerStep boundedFactory = .ok t ∧ t._pause = true ∧
      (t.deref 0).map Layout.shouldCancel = some false :=
  ⟨rfl, rfl, rfl, rfl, _, _, rfl, rfl, rfl, rfl, rfl⟩

/-! ## resume and stop -/

/-- C12: from every state, after resume() the pause request is cleared and `isPaused()` is
false, while the active set, the counters, the stop flag and the live objects are unchanged; a
parked worker has been woken. -/
theorem resume_effect (s : LayoutThread) :
    s.resume._pause = false ∧ s.resume.isPaused = false ∧
    s.resume.layouts = s.layouts ∧ s.resume.iterationsRemaining = s.iterationsRemaining ∧
    s.resume._stop = s._stop ∧ s.resume.heap = s.heap ∧
    s.resume.worker = (if s.worker = .parked then .woken else s.worker) := by
  unfold LayoutThread.resume LayoutThread.wakeWorker
  cases hw : s.worker <;> simp [LayoutThread.isPaused]

/-- What stop() does in a state whose tracked addresses are live and whose cancellation flags
are 0 or 1: it returns with the stop flag set and with `shouldCancel()` true for every tracked
instance; the active set and the counters are as before. -/
theorem LayoutThread.stop_of_live (s : LayoutThread)
    (hf : ∀ e ∈ s.heap, e.2.cancelAtomic = 0 ∨ e.2.cancelAtomic = 1)
    (hl : ∀ p ∈ QMap.values s.layouts, (s.deref p).isSome = true) :
    ∃ t, s.stop = .ok t ∧ t._stop = true ∧
      (∀ p ∈ QMap.values s.layouts, ∃ l, t.deref p = some l ∧ l.shouldCancel = true) ∧
      t.layouts = s.layouts ∧ t.iterationsRemaining = s.iterationsRemaining := by
  have heq := LayoutThread.cancelEach_eq (QMap.values s.layouts)
    { s with _stop := true, _pause := false } hl
  have key : ∀ u : LayoutThread,
      LayoutThread.cancelEach (QMap.values s.layouts) { s with _stop := true, _pause := false } =
        .ok u →
      u._stop = true ∧
      (∀ p ∈ QMap.values s.layouts, ∃ l, u.deref p = some l ∧ l.shouldCancel = true) ∧
      u.layouts = s.layouts ∧ u.iterationsRemaining = s.iterationsRemaining := by
    intro u hu
    rw [heq] at hu
    have hu2 := (Outcome.ok.inj hu).symm
    subst hu2
    refine ⟨rfl, ?_, rfl, rfl⟩
    intro p hp
    obtain ⟨l, hlp⟩ := Option.isSome_iff_exists.1 (hl p hp)
    refine ⟨l.cancel, ?_, ?_⟩
    · have := LayoutThread.deref_map_heap { s with _stop := true, _pause := false } Layout.cancel
        (fun a => a ∈ QMap.values s.layouts) p
      rw [this]
      have hd : LayoutThread.deref { s with _stop := true, _pause := false } p = some l := hlp
      simp [hd, hp]
    · have hflag :=
        Layout.cancel_flag l (hf (p, l) (LayoutThread.mem_heap_of_deref s p l hlp))
      simp [Layout.shouldCancel, hflag]
  obtain ⟨u, hu, h1, h2, h3, h4⟩ : ∃ u,
      LayoutThread.cancelEach (QMap.values s.layouts) { s with _stop := true, _pause := false } =
        .ok u ∧ u._stop = true ∧
      (∀ p ∈ QMap.values s.layouts, ∃ l, u.deref p = some l ∧ l.shouldCancel = true) ∧
      u.layouts = s.layouts ∧ u.iterationsRemaining = s.iterationsRemaining :=
    ⟨_, heq, key _ heq⟩
  clear heq key
  have hstop : s.stop = .ok u.wakeWorker := by
    unfold LayoutThread.stop
    simp only [hu, Outcome.bind]
  refine ⟨_, hstop, ?_⟩
  unfold LayoutThread.wakeWorker
  split
  · exact ⟨h1, h2, h3, h4⟩
  · exact ⟨h1, h2, h3, h4⟩

/-- C13, evaluated on the code.  In `exitedExample`, reached by add(1) and the worker running
until it leaves its loop, ComponentId 1 is tracked under the address of an instance that the
worker has deleted; stop(), which the destructor of the scheduler calls, calls `cancel()`
through that pointer, which has no defined behaviour.  And where stop() does set the flags, they
need not stay set: after add(2) and the worker entering its pass, stop() sets the flag of the
instance, and the loop body the worker runs next clears it in `execute()`. -/
theorem stop_after_exit_undefined :
    LayoutThread.init.run boundedFactory [.add 1 0, .work, .work, .work, .work] =
      .ok exitedExample ∧
    QMap.values exitedExample.layouts = [0] ∧ exitedExample.deref 0 = none ∧
    exitedExample.stop = .undefined ∧
    ∃ s t, LayoutThread.init.run boundedFactory [.add 2 0, .work, .stop] = .ok s ∧
      (s.deref 0).map Layout.shouldCancel = some true ∧
      s.workerStep boundedFactory = .ok t ∧ t._stop = true ∧
      (t.deref 0).map Layout.shouldCancel = some false :=
  ⟨rfl, rfl, rfl, rfl, _, _, rfl, rfl, rfl, rfl, rfl⟩

/-! ## The cancellation flag and the iteration count of a Layout -/

theorem testAndSetRelaxed_same (c v : Int) : testAndSetRelaxed c v v = c := by
  unfold testAndSetRelaxed
  split_ifs with h
  · exact h.symm
  · rfl

theorem Layout.afterShouldCancel_eq (l : Layout) : l.afterShouldCancel = l := by
  unfold Layout.afterShouldCancel
  rw [testAndSetRelaxed_same]

theorem Layout.cancel_cancel (l : Layout) : l.cancel.cancel = l.cancel := by
  simp only [Layout.cancel, Layout.setCancel, testAndSetRelaxed]
  by_cases h0 : l.cancelAtomic = 0 <;> simp [h0]

theorem Layout.atExecuteReal_shouldCancel (l : Layout) : l.atExecuteReal.shouldCancel = false := by
  simp only [Layout.atExecuteReal, Layout.setCancel, Layout.shouldCancel, testAndSetRelaxed]
  by_cases h1 : l.cancelAtomic = 1 <;> simp [h1]

theorem Layout.call_flag (F : LayoutFactory) (c : FlagCall) (l : Layout)
    (h : l.cancelAtomic = 0 ∨ l.cancelAtomic = 1) :
    (l.call F c).cancelAtomic = 0 ∨ (l.call F c).cancelAtomic = 1 := by
  cases c with
  | cancel => exact Or.inr (Layout.cancel_flag l h)
  | execute => exact Or.inl (Layout.execute_flag F l h)
  | shouldCancel =>
    show l.afterShouldCancel.cancelAtomic = 0 ∨ l.afterShouldCancel.cancelAtomic = 1
    rw [Layout.afterShouldCancel_eq]
    exact h

theorem Layout.calls_flag (F : LayoutFactory) (cs : List FlagCall) (l : Layout)
    (h : l.cancelAtomic = 0 ∨ l.cancelAtomic = 1) :
    (Layout.calls F cs l).cancelAtomic = 0 ∨ (Layout.calls F cs l).cancelAtomic = 1 := by
  induction cs generalizing l with
  | nil => exact h
  | cons c cs ih => exact ih _ (Layout.call_flag F c l h)

theorem Layout.calls_new_flag (F : LayoutFactory) (cs : List FlagCall) (g : ComponentId)
    (st : Nat) (n : Int) :
    (Layout.calls F cs (Layout.new g st n)).cancelAtomic = 0 ∨
      (Layout.calls F cs (Layout.new g st n)).cancelAtomic = 1 :=
  Layout.calls_flag F cs _ (Or.inl rfl)

theorem Layout.calls_shouldCancel (F : LayoutFactory) (cs : List FlagCall) (l : Layout)
    (h : l.cancelAtomic = 1) :
    (Layout.calls F (cs.filter (fun c => decide (c ≠ .execute))) l).cancelAtomic = 1 := by
  induction cs generalizing l with
  | nil => exact h
  | cons c cs ih =>
    cases c with
    | cancel =>
      simp only [List.filter_cons, ne_eq, reduceCtorEq, not_false_eq_true, decide_True, if_true]
      exact ih _ (Layout.cancel_flag l (Or.inr h))
    | execute =>
      simp only [List.filter_cons, ne_eq, not_true_eq_false, decide_False, Bool.false_eq_true,
        if_false]
      exact ih l h
    | shouldCancel =>
      simp only [List.filter_cons, ne_eq, reduceCtorEq, not_false_eq_true, decide_True, if_true]
      refine ih _ ?_
      show l.afterShouldCancel.cancelAtomic = 1
      rw [Layout.afterShouldCancel_eq]
      exact h

/-- C18: whatever the flag held before, at the entry of `executeReal` inside `execute()`
`shouldCancel()` is false, also right after `cancel()` and in a repeated `execute()`; the flag
is left as `execute()` set it (`executeReal` cannot reach the private atomic), and for an object
that has only been through its member functions since construction it is 0. -/
theorem execute_clears_cancel (F : LayoutFactory) (l : Layout) (cs : List FlagCall)
    (g : ComponentId) (st : Nat) (n : Int) :
    l.atExecuteReal.shouldCancel = false ∧
    l.cancel.atExecuteReal.shouldCancel = false ∧
    (l.execute F).atExecuteReal.shouldCancel = false ∧
    (l.execute F).cancelAtomic = l.atExecuteReal.cancelAtomic ∧
    (l.execute F).state = F.executeReal l.atExecuteReal.state ∧
    (Layout.calls F cs (Layout.new g st n)).atExecuteReal.cancelAtomic = 0 ∧
    ((Layout.calls F cs (Layout.new g st n)).cancel.execute F).cancelAtomic = 0 :=
  ⟨Layout.atExecuteReal_shouldCancel l, Layout.atExecuteReal_shouldCancel _,
    Layout.atExecuteReal_shouldCancel _, rfl, rfl,
    Layout.execute_flag F _ (Layout.calls_new_flag F cs g st n),
    Layout.execute_flag F _ (Or.inr (Layout.cancel_flag _ (Layout.calls_new_flag F cs g st n)))⟩

/-- C19: for an object that has been through any sequence of `cancel()`, `execute()` and
`shouldCancel()` calls since its construction, the flag is 0 or 1; after `cancel()`
`shouldCancel()` is true and stays true through any further calls other than `execute()`;
`cancel(); cancel()` equals `cancel()`; and `shouldCancel()` leaves the object as it was. -/
theorem cancel_sets_flag (F : LayoutFactory) (cs cs2 : List FlagCall) (g : ComponentId)
    (st : Nat) (n : Int) (l : Layout) :
    ((Layout.calls F cs (Layout.new g st n)).cancelAtomic = 0 ∨
      (Layout.calls F cs (Layout.new g st n)).cancelAtomic = 1) ∧
    (Layout.calls F cs (Layout.new g st n)).cancel.shouldCancel = true ∧
    (Layout.calls F (cs2.filter (fun c => decide (c ≠ .execute)))
      (Layout.calls F cs (Layout.new g st n)).cancel).shouldCancel = true ∧
    l.cancel.cancel = l.cancel ∧
    l.afterShouldCancel = l ∧
    l.shouldCancel = decide (l.cancelAtomic = 1) := by
  have h01 := Layout.calls_new_flag F cs g st n
  have h1 := Layout.cancel_flag _ h01
  refine ⟨h01, ?_, ?_, Layout.cancel_cancel l, Layout.afterShouldCancel_eq l, rfl⟩
  · simp [Layout.shouldCancel, h1]
  · have h2 := Layout.calls_shouldCancel F cs2 _ h1
    unfold Layout.shouldCancel
    rw [h2]
    rfl

/-- C20: after `setIterations(n)` `iterations()` returns n and `iterative()` is true exactly
when n differs from 1; `Layout::Unbounded` is -1 and iterative; a Layout constructed with the
default count has `iterations() == 1` and is not iterative. -/
theorem iterations_iterative (l : Layout) (n : Int) (g : ComponentId) (st : Nat) :
    (l.setIterations n).iterations = n ∧
    ((l.setIterations n).iterative = true ↔ n ≠ 1) ∧
    Layout.Unbounded = -1 ∧
    (l.setIterations Layout.Unbounded).iterative = true ∧
    (Layout.new g st Layout.defaultNumIterations).iterations = 1 ∧
    (Layout.new g st Layout.defaultNumIterations).iterative = false := by
  refine ⟨rfl, ?_, rfl, ?_, rfl, ?_⟩
  · simp [Layout.iterative, Layout.setIterations]
  · simp [Layout.iterative, Layout.setIterations, Layout.Unbounded]
  · simp [Layout.iterative, Layout.new, Layout.defaultNumIterations]

/-! ## The control flags and the worker -/

namespace LayoutThread

theorem passStep_flags (F : LayoutFactory) (p : Ptr) (s : LayoutThread) :
    (s.passStep F p).All
      (fun t => t._pause = s._pause ∧ t._stop = s._stop ∧ t._isPaused = s._isPaused) := by
  unfold LayoutThread.passStep
  cases s.deref p with
  | none => trivial
  | some l =>
    simp only
    split_ifs <;> exact ⟨rfl, rfl, rfl⟩

theorem passLoop_flags (F : LayoutFactory) (ps : List Ptr) (s : LayoutThread) :
    (s.passLoop F ps).All
      (fun t => t._pause = s._pause ∧ t._stop = s._stop ∧ t._isPaused = s._isPaused) := by
  induction ps generalizing s with
  | nil => exact ⟨rfl, rfl, rfl⟩
  | cons p ps ih =>
    exact (passStep_flags F p s).bind (fun s1 h1 => (ih s1).mono
      (fun t ht => ⟨ht.1.trans h1.1, ht.2.1.trans h1.2.1, ht.2.2.trans h1.2.2⟩))

theorem deleteEach_flags (ps : List Ptr) (s : LayoutThread) :
    (s.deleteEach ps).All
      (fun t => t._pause = s._pause ∧ t._stop = s._stop ∧ t._isPaused = s._isPaused) := by
  induction ps generalizing s with
  | nil => exact ⟨rfl, rfl, rfl⟩
  | cons p ps ih =>
    have hd : (s.delete p).All
        (fun t => t._pause = s._pause ∧ t._stop = s._stop ∧ t._isPaused = s._isPaused) := by
      unfold LayoutThread.delete
      cases s.deref p with
      | none => trivial
      | some l => exact ⟨rfl, rfl, rfl⟩
    exact hd.bind (fun s1 h1 => (ih s1).mono
      (fun t ht => ⟨ht.1.trans h1.1, ht.2.1.trans h1.2.1, ht.2.2.trans h1.2.2⟩))

theorem exitRun_flags (s : LayoutThread) :
    s.exitRun.All (fun t => t._pause = s._pause ∧ t._stop = s._stop ∧ t.worker = .finished) :=
  (deleteEach_flags _ s).bind (fun _ h1 => ⟨h1.1, h1.2.1, rfl⟩)

theorem endOfPass_flags (F : LayoutFactory) (s : LayoutThread) :
    (s.endOfPass F).All (fun t => t._pause = s._pause ∧ t._stop = s._stop) := by
  unfold LayoutThread.endOfPass
  split
  · trivial
  · exact ⟨rfl, rfl⟩
  · split_ifs
    · exact (exitRun_flags s).mono (fun _ h => ⟨h.1, h.2.1⟩)
    · exact ⟨rfl, rfl⟩

theorem workerStep_flags (F : LayoutFactory) (s : LayoutThread) :
    (s.workerStep F).All (fun t => t._pause = s._pause ∧ t._stop = s._stop) := by
  unfold LayoutThread.workerStep
  split
  · split_ifs
    · exact ⟨rfl, rfl⟩
    · exact (exitRun_flags s).mono (fun _ h => ⟨h.1, h.2.1⟩)
  · exact ⟨rfl, rfl⟩
  · exact (passStep_flags F _ s).bind (fun _ h1 => ⟨h1.1, h1.2.1⟩)
  · exact endOfPass_flags F s
  · split_ifs
    · exact (exitRun_flags s).mono (fun _ h => ⟨h.1, h.2.1⟩)
    · exact ⟨rfl, rfl⟩
  · exact ⟨rfl, rfl⟩

/-- With a pause or a stop requested, the end-of-pass block never leads back to the loop
head. -/
theorem endOfPass_worker (F : LayoutFactory) (s : LayoutThread)
    (hq : s._pause = true ∨ s._stop = true) :
    (s.endOfPass F).All (fun t => t.worker = .parked ∨ t.worker = .finished) := by
  unfold LayoutThread.endOfPass
  split
  · trivial
  · exact Or.inl rfl
  · next hfalse =>
    by_cases hst : s._stop = true
    · rw [if_pos hst]
      exact (exitRun_flags s).mono (fun _ h => Or.inr h.2.2)
    · rcases hq with hp | hs
      · simp [hp] at hfalse
      · exact absurd hs hst

theorem workerStep_resting (F : LayoutFactory) (s : LayoutThread)
    (hq : s._pause = true ∨ s._stop = true)
    (hr : s.worker ≠ .running) (hw : s.worker ≠ .woken) :
    (s.workerStep F).All (fun t => (t._pause = true ∨ t._stop = true) ∧
      t.worker ≠ .running ∧ t.worker ≠ .woken) := by
  have hfl := workerStep_flags F s
  have hwk : (s.workerStep F).All (fun t => t.worker ≠ .running ∧ t.worker ≠ .woken) := by
    unfold LayoutThread.workerStep
    split
    · next h => exact absurd h hr
    · exact ⟨fun h => Worker.noConfusion h, fun h => Worker.noConfusion h⟩
    · cases s.passStep F _ with
      | ok s1 => exact ⟨Worker.loop_ne_running _, Worker.loop_ne_woken _⟩
      | blocked => trivial
      | undefined => trivial
      | excluded => trivial
    · refine (endOfPass_worker F s hq).mono (fun t ht => ?_)
      rcases ht with ht | ht <;> rw [ht] <;> exact ⟨by decide, by decide⟩
    · next h => exact absurd h hw
    · exact ⟨hr, hw⟩
  cases hs : s.workerStep F with
  | ok t =>
    rw [hs] at hfl hwk
    refine ⟨?_, hwk⟩
    rw [hfl.1, hfl.2]
    exact hq
  | blocked => trivial
  | undefined => trivial
  | excluded => trivial

theorem passesWithin_resting (F : LayoutFactory) (n : Nat) (s : LayoutThread)
    (hq : s._pause = true ∨ s._stop = true)
    (hr : s.worker ≠ .running) (hw : s.worker ≠ .woken) : s.passesWithin F n = 0 := by
  induction n generalizing s with
  | zero => rfl
  | succ n ih =>
    have hstep := workerStep_resting F s hq hr hw
    unfold LayoutThread.passesWithin
    have hb : s.beginsPass = false := by simp [LayoutThread.beginsPass, hr]
    rw [hb]
    cases hs : s.workerStep F with
    | ok t =>
      rw [hs] at hstep
      simpa using ih t hstep.1 hstep.2.1 hstep.2.2
    | blocked => rfl
    | undefined => rfl
    | excluded => rfl

theorem passesWithin_running (F : LayoutFactory) (n : Nat) (s : LayoutThread)
    (hq : s._pause = true ∨ s._stop = true) (hr : s.worker = .running) :
    s.passesWithin F n ≤ 1 := by
  cases n with
  | zero => exact Nat.zero_le _
  | succ n =>
    have hfl := workerStep_flags F s
    have hwk : (s.workerStep F).All (fun t => t.worker ≠ .running ∧ t.worker ≠ .woken) := by
      unfold LayoutThread.workerStep
      simp only [hr]
      split_ifs
      · exact ⟨Worker.loop_ne_running _, Worker.loop_ne_woken _⟩
      · refine (exitRun_flags s).mono (fun t ht => ?_)
        rw [ht.2.2]
        exact ⟨by decide, by decide⟩
    unfold LayoutThread.passesWithin
    cases hs : s.workerStep F with
    | ok t =>
      rw [hs] at hfl hwk
      have h0 := passesWithin_resting F n t (by rw [hfl.1, hfl.2]; exact hq) hwk.1 hwk.2
      simp only [h0]
      split_ifs <;> simp
    | blocked => split_ifs <;> simp
    | undefined => split_ifs <;> simp
    | excluded => split_ifs <;> simp

/-- With a pause or a stop requested the worker begins at most one more pass, however many
sections it goes through. -/
theorem passesWithin_le_one (F : LayoutFactory) (n : Nat) (s : LayoutThread)
    (hq : s._pause = true ∨ s._stop = true) : s.passesWithin F n ≤ 1 := by
  by_cases hr : s.worker = .running
  · exact passesWithin_running F n s hq hr
  · by_cases hw : s.worker = .woken
    · cases n with
      | zero => exact Nat.zero_le _
      | succ n =>
        unfold LayoutThread.passesWithin
        have hb : s.beginsPass = false := by simp [LayoutThread.beginsPass, hr]
        rw [hb]
        have hstep : s.workerStep F =
            if s._stop then s.exitRun else .ok { s with worker := .running } := by
          unfold LayoutThread.workerStep
          simp only [hw]
        rw [hstep]
        by_cases hst : s._stop = true
        · rw [if_pos hst]
          have hx := exitRun_flags s
          cases hs : s.exitRun with
          | ok t =>
            rw [hs] at hx
            have h0 := passesWithin_resting F n t (by rw [hx.1, hx.2.1]; exact hq)
              (by rw [hx.2.2]; decide) (by rw [hx.2.2]; decide)
            simp [h0]
          | blocked => simp
          | undefined => simp
          | excluded => simp
        · rw [if_neg hst]
          simpa using passesWithin_running F n { s with worker := .running } hq rfl
    · rw [passesWithin_resting F n s hq hr hw]
      exact Nat.zero_le _

end LayoutThread

namespace LayoutThread

theorem cancelEach_frame (ps : List Ptr) (s : LayoutThread) :
    (s.cancelEach ps).All (fun t => t._pause = s._pause ∧ t._stop = s._stop ∧
      t._isPaused = s._isPaused ∧ t.worker = s.worker) := by
  induction ps generalizing s with
  | nil => exact ⟨rfl, rfl, rfl, rfl⟩
  | cons p ps ih =>
    unfold LayoutThread.cancelEach
    cases s.deref p with
    | none => trivial
    | some l => exact ih (s.update p Layout.cancel)

theorem wakeWorker_stop (s : LayoutThread) : s.wakeWorker._stop = s._stop := by
  unfold LayoutThread.wakeWorker
  split <;> rfl

theorem resume_stop (s : LayoutThread) : s.resume._stop = s._stop := by
  unfold LayoutThread.resume
  rw [wakeWorker_stop]

theorem add_stop (F : LayoutFactory) (s : LayoutThread) (c : ComponentId) (p : Ptr) :
    (s.add F c p)._stop = s._stop := by
  unfold LayoutThread.add LayoutThread.start
  split_ifs
  · simp only
    split <;> rfl
  · rfl

theorem delete_stop (s : LayoutThread) (p : Ptr) :
    (s.delete p).All (fun t => t._stop = s._stop) := by
  unfold LayoutThread.delete
  cases s.deref p with
  | none => trivial
  | some l => exact rfl

theorem waitForPauseWait_stop (F : LayoutFactory) (fuel : Nat) (s : LayoutThread) :
    (waitForPauseWait F fuel s).All (fun t => t._stop = s._stop) := by
  induction fuel generalizing s with
  | zero => trivial
  | succ n ih =>
    unfold LayoutThread.waitForPauseWait
    split
    · trivial
    · trivial
    · trivial
    · refine (workerStep_flags F s).bind (fun s1 h1 => ?_)
      split_ifs
      · exact h1.2
      · exact (ih s1).mono (fun t ht => ht.trans h1.2)
    · exact (workerStep_flags F s).bind
        (fun s1 h1 => (ih s1).mono (fun t ht => ht.trans h1.2))

theorem pauseAndWait_stop (F : LayoutFactory) (s : LayoutThread) :
    (s.pauseAndWait F).All (fun t => t._stop = s._stop) :=
  (cancelEach_frame _ { s with _pause := true }).bind
    (fun s1 h1 => (waitForPauseWait_stop F _ s1).mono (fun _ ht => ht.trans h1.2.1))

theorem remove_stop (F : LayoutFactory) (s : LayoutThread) (c : ComponentId) :
    (s.remove F c).All (fun t => t._stop = s._stop) := by
  unfold LayoutThread.remove
  have h1 : (if s.isPaused then s.pauseAndWait F else Outcome.ok s).All
      (fun t => t._stop = s._stop) := by
    split_ifs
    · exact pauseAndWait_stop F s
    · exact rfl
  refine h1.bind (fun s1 hs1 => Outcome.All.bind (P := fun t => t._stop = s._stop) ?_ ?_)
  · split_ifs
    · split
      · exact hs1
      · exact (delete_stop _ _).mono (fun t ht => ht.trans hs1)
    · exact hs1
  · intro s2 hs2
    show (if s.isPaused then s2.resume else s2)._stop = s._stop
    split_ifs
    · rw [resume_stop]; exact hs2
    · exact hs2

theorem stop_stop (s : LayoutThread) : s.stop.All (fun t => t._stop = true) :=
  (cancelEach_frame _ { s with _stop := true, _pause := false }).bind
    (fun s1 h1 => (wakeWorker_stop s1).trans h1.2.1)

/-- No event clears the stop request. -/
theorem apply_stop (F : LayoutFactory) (e : Event) (s : LayoutThread) (hs : s._stop = true) :
    (s.apply F e).All (fun t => t._stop = true) := by
  cases e with
  | add c p =>
    show Outcome.All _
      (if !QMap.contains s.layouts c && (s.deref p).isSome then .excluded
        else .ok (s.add F c p))
    split_ifs
    · trivial
    · exact (add_stop F s c p).trans hs
  | remove c => exact (remove_stop F s c).mono (fun t ht => ht.trans hs)
  | pause =>
    exact (cancelEach_frame _ { s with _pause := true }).mono (fun t ht => ht.2.1.trans hs)
  | pauseAndWait => exact (pauseAndWait_stop F s).mono (fun t ht => ht.trans hs)
  | resume => exact (resume_stop s).trans hs
  | stop => exact stop_stop s
  | work => exact (workerStep_flags F s).mono (fun t ht => ht.2.trans hs)

theorem run_stop (F : LayoutFactory) (es : List Event) (s : LayoutThread) (hs : s._stop = true) :
    (s.run F es).All (fun t => t._stop = true) := by
  induction es generalizing s with
  | nil => exact hs
  | cons e es ih => exact (apply_stop F e s hs).bind (fun s1 h1 => ih s1 h1)

theorem run_work_flags (F : LayoutFactory) (n : Nat) (s : LayoutThread) :
    (s.run F (List.replicate n .work)).All
      (fun t => t._pause = s._pause ∧ t._stop = s._stop) := by
  induction n generalizing s with
  | zero => exact ⟨rfl, rfl⟩
  | succ n ih =>
    exact (workerStep_flags F s).bind (fun s1 h1 => (ih s1).mono
      (fun t ht => ⟨ht.1.trans h1.1, ht.2.trans h1.2⟩))

theorem run_append (F : LayoutFactory) (es fs : List Event) (s : LayoutThread) :
    s.run F (es ++ fs) = (s.run F es).bind (run F fs) := by
  induction es generalizing s with
  | nil => rfl
  | cons e es ih =>
    show ((s.apply F e).bind (run F (es ++ fs))) = ((s.apply F e).bind (run F es)).bind (run F fs)
    cases s.apply F e with
    | ok s1 => exact ih s1
    | blocked => rfl
    | undefined => rfl
    | excluded => rfl

/-- The loop body does not look at the worker. -/
theorem passStep_worker (F : LayoutFactory) (s : LayoutThread) (w : Worker) (p : Ptr) :
    LayoutThread.passStep F { s with worker := w } p =
      (s.passStep F p).bind (fun t => .ok { t with worker := w }) := by
  obtain ⟨a, b, c, d, e, h, w0⟩ := s
  simp only [LayoutThread.passStep, LayoutThread.deref, LayoutThread.remaining,
    LayoutThread.update]
  split
  · rfl
  · split_ifs <;> rfl

theorem passLoop_worker (F : LayoutFactory) (ps : List Ptr) (s : LayoutThread) (w : Worker) :
    LayoutThread.passLoop F ps { s with worker := w } =
      (s.passLoop F ps).bind (fun t => .ok { t with worker := w }) := by
  induction ps generalizing s with
  | nil => rfl
  | cons p ps ih =>
    show (LayoutThread.passStep F { s with worker := w } p).bind (passLoop F ps) =
      ((s.passStep F p).bind (passLoop F ps)).bind (fun t => .ok { t with worker := w })
    rw [passStep_worker]
    cases s.passStep F p with
    | ok s1 => exact ih s1
    | blocked => rfl
    | undefined => rfl
    | excluded => rfl

/-- The sections of the worker inside the `for` loop: with the elements `ps ++ qs` left to
visit, `ps.length` sections run the loop bodies of `ps`, in this order, and leave `qs`. -/
theorem run_work_loop (F : LayoutFactory) (ps qs : List Ptr) (s : LayoutThread)
    (hw : s.worker = Worker.loop (ps ++ qs)) :
    s.run F (List.replicate ps.length .work) =
      (s.passLoop F ps).bind (fun u => .ok { u with worker := Worker.loop qs }) := by
  induction ps generalizing s with
  | nil =>
    show Outcome.ok s = Outcome.ok { s with worker := Worker.loop qs }
    rw [← (show s.worker = Worker.loop qs from hw)]
  | cons p ps ih =>
    have hstep : s.workerStep F =
        (s.passStep F p).bind (fun s1 => .ok { s1 with worker := Worker.loop (ps ++ qs) }) := by
      unfold LayoutThread.workerStep
      rw [show s.worker = Worker.inPass (p :: (ps ++ qs)) from hw]
    show (s.workerStep F).bind (run F (List.replicate ps.length .work)) =
      ((s.passStep F p).bind (passLoop F ps)).bind (fun u => .ok { u with worker := Worker.loop qs })
    rw [hstep]
    cases s.passStep F p with
    | ok s1 =>
      show LayoutThread.run F (List.replicate ps.length .work)
          { s1 with worker := Worker.loop (ps ++ qs) } =
        (s1.passLoop F ps).bind (fun u => .ok { u with worker := Worker.loop qs })
      rw [ih _ rfl, passLoop_worker]
      cases s1.passLoop F ps with
      | ok u => rfl
      | blocked => rfl
      | undefined => rfl
      | excluded => rfl
    | blocked => rfl
    | undefined => rfl
    | excluded => rfl

/-- A whole pass in sections: from the loop head with work remaining, one section enters the
`for` loop and one section per element of `layouts.values()` runs the loop bodies. -/
theorem run_work_pass (F : LayoutFactory) (s : LayoutThread) (hw : s.worker = .running)
    (hwr : s.workRemaining = true) :
    s.run F (List.replicate ((QMap.values s.layouts).length + 1) .work) =
      (s.pass F).bind (fun u => .ok { u with worker := .passDone }) := by
  have hstep : s.workerStep F =
      .ok { s with worker := Worker.loop (QMap.values s.layouts) } := by
    unfold LayoutThread.workerStep
    simp only [hw, hwr, if_true]
  rw [List.replicate_succ]
  show (s.workerStep F).bind (run F (List.replicate (QMap.values s.layouts).length .work)) = _
  rw [hstep]
  show LayoutThread.run F (List.replicate (QMap.values s.layouts).length .work)
      { s with worker := Worker.loop (QMap.values s.layouts) } = _
  have h := run_work_loop F (QMap.values s.layouts) []
    { s with worker := Worker.loop (QMap.values s.layouts) } (by rw [List.append_nil])
  rw [h, passLoop_worker]
  unfold LayoutThread.pass
  cases s.passLoop F (QMap.values s.layouts) with
  | ok u => rfl
  | blocked => rfl
  | undefined => rfl
  | excluded => rfl

theorem endOfPass_of_pause (F : LayoutFactory) (s : LayoutThread) (hp : s._pause = true) :
    s.endOfPass F = .ok { s with _isPaused := true, worker := .parked } := by
  simp [LayoutThread.endOfPass, hp]

/-- The heap after the delete loop over addresses that are live and pairwise different. -/
theorem deleteEach_eq (ps : List Ptr) (s : LayoutThread) (hnd : ps.Nodup)
    (h : ∀ p ∈ ps, (s.deref p).isSome = true) :
    s.deleteEach ps =
      .ok { s with heap := s.heap.filter (fun e => !decide (e.1 ∈ ps)) } := by
  induction ps generalizing s with
  | nil => simp [LayoutThread.deleteEach]
  | cons p ps ih =>
    obtain ⟨hp, hnd2⟩ := List.nodup_cons.1 hnd
    unfold LayoutThread.deleteEach LayoutThread.delete
    obtain ⟨l, hl⟩ := Option.isSome_iff_exists.1 (h p (List.mem_cons_self _ _))
    rw [hl]
    simp only [Outcome.bind]
    have hlive : ∀ q ∈ ps, (LayoutThread.deref
        { s with heap := s.heap.filter (fun e => !decide (e.1 = p)) } q).isSome = true := by
      intro q hq
      rw [deref_filter_ne s p q (fun hqp => hp (hqp ▸ hq))]
      exact h q (List.mem_cons_of_mem _ hq)
    rw [ih _ hnd2 hlive]
    simp only [List.filter_filter]
    congr 2
    apply List.filter_congr
    intro e _
    by_cases h1 : e.1 = p <;> by_cases h2 : e.1 ∈ ps <;> simp [h1, h2]

theorem deref_filter_mem (s : LayoutThread) (ps : List Ptr) (p : Ptr) (hp : p ∈ ps) :
    LayoutThread.deref { s with heap := s.heap.filter (fun e => !decide (e.1 ∈ ps)) } p =
      none := by
  unfold LayoutThread.deref
  rw [Option.map_eq_none', List.find?_eq_none]
  intro e he
  have h2 : e.1 ∉ ps := by simpa using (List.mem_filter.1 he).2
  simp only [decide_eq_true_eq]
  exact fun h => h2 (h ▸ hp)

end LayoutThread

/-! ## Parking after pause, leaving the loop after stop -/

/-- C11: after pause() has returned, and with no further call of the client, every end-of-pass
block the worker reaches parks it with `isPaused()` true, whatever the active set; the worker
begins at most one pass, however many sections it goes through; and a worker that stands at the
loop head with work remaining and a defined pass is parked after that one pass, that is after
the section that enters the `for` loop, one section for each loop body and the end-of-pass
block. -/
theorem pause_parks_worker (F : LayoutFactory) (s0 s : LayoutThread) (h : s0.pause = .ok s) :
    (∀ n u, s.run F (List.replicate n .work) = .ok u →
      u.endOfPass F = .ok { u with _isPaused := true, worker := .parked }) ∧
    (∀ n, s.passesWithin F n ≤ 1) ∧
    (∀ s1, s.worker = .running → s.workRemaining = true → s.pass F = .ok s1 →
      s.run F (List.replicate ((QMap.values s.layouts).length + 2) .work) =
        .ok { s1 with _isPaused := true, worker := .parked }) := by
  have hp : s._pause = true :=
    ((LayoutThread.cancelEach_frame _ { s0 with _pause := true }).of_eq h).1
  refine ⟨?_, fun n => LayoutThread.passesWithin_le_one F n s (Or.inl hp), ?_⟩
  · intro n u hu
    have hflags := (LayoutThread.run_work_flags F n s).of_eq hu
    exact LayoutThread.endOfPass_of_pause F u (hflags.1.trans hp)
  · intro s1 hw hwr hpass
    have hp1 : s1._pause = true :=
      (((LayoutThread.passLoop_flags F _ s).of_eq hpass).1).trans hp
    have hstep2 : LayoutThread.workerStep F { s1 with worker := .passDone } =
        .ok { s1 with _isPaused := true, worker := .parked } := by
      unfold LayoutThread.workerStep
      exact LayoutThread.endOfPass_of_pause F { s1 with worker := .passDone } hp1
    rw [List.replicate_succ', LayoutThread.run_append, LayoutThread.run_work_pass F s hw hwr,
      hpass]
    simp only [LayoutThread.run, LayoutThread.apply, hstep2, Outcome.bind]

theorem pause_parks_worker_witness :
    (LayoutThread.init.add boundedFactory 2 0).pause.state.passesWithin boundedFactory 7 ≤ 1 ∧
    ((LayoutThread.init.add boundedFactory 2 0).pause.state.run boundedFactory
      [.work, .work, .work]).state.isPaused = true :=
  have h := pause_parks_worker boundedFactory (LayoutThread.init.add boundedFactory 2 0)
    (LayoutThread.init.add boundedFactory 2 0).pause.state rfl
  ⟨h.2.1 7, by
    have h3 := h.2.2 _ rfl rfl rfl
    exact (congrArg (fun o => o.state.isPaused) h3).trans rfl⟩

/-- C14, as stated, fails on the code: after add(2), one pass, the end-of-pass block and then
stop(), the worker stands at the loop head; its next sections are a new pass, in which
`execute()` is called on the instance once more. -/
theorem stop_then_new_pass :
    ∃ s t, LayoutThread.init.run boundedFactory [.add 2 0, .work, .work, .work, .stop] = .ok s ∧
      s._stop = true ∧ s.beginsPass = true ∧ s.executions 0 = 1 ∧
      s.run boundedFactory [.work, .work] = .ok t ∧ t.worker = .passDone ∧
      t.executions 0 = 2 :=
  ⟨_, _, rfl, rfl, rfl, rfl, rfl, rfl, rfl⟩

/-- C14, amended: once stop() has returned, in every later state, whatever calls of the client
and sections of the worker have followed, the stop flag is set and the worker begins at most
one more pass within any number of its sections, no call of the client coming in between; when
it is woken, and at an end-of-pass block at which no pause is requested and not every instance
reports `shouldPause()`, it leaves the loop; and when the loop exits in a state whose tracked
addresses are live and pairwise different, every instance in the active set is destroyed and
the thread ends. -/
theorem stop_ends_loop (F : LayoutFactory) (s0 t0 s : LayoutThread) (es : List Event)
    (h0 : s0.stop = .ok t0) (h : t0.run F es = .ok s) :
    s._stop = true ∧
    (∀ n, s.passesWithin F n ≤ 1) ∧
    (s.worker = .woken → s.workerStep F = s.exitRun) ∧
    (s.worker = .passDone → s._pause = false →
      s.allLayoutAlgorithmsShouldPause F = some false → s.workerStep F = s.exitRun) ∧
    ((∀ p ∈ QMap.values s.layouts, (s.deref p).isSome = true) →
      (QMap.values s.layouts).Nodup →
      ∃ t, s.exitRun = .ok t ∧ t.worker = .finished ∧
        ∀ p ∈ QMap.values s.layouts, t.deref p = none) := by
  have hs : s._stop = true :=
    (LayoutThread.run_stop F es t0 ((LayoutThread.stop_stop s0).of_eq h0)).of_eq h
  refine ⟨hs, fun n => LayoutThread.passesWithin_le_one F n s (Or.inr hs), ?_, ?_, ?_⟩
  · intro hw
    unfold LayoutThread.workerStep
    simp only [hw, hs, if_true]
  · intro hw hp hall
    unfold LayoutThread.workerStep LayoutThread.endOfPass
    simp only [hw, hp, hall, hs, if_true, Bool.false_eq_true, if_false]
  · intro hl hnd
    have heq := LayoutThread.deleteEach_eq (QMap.values s.layouts) s hnd hl
    refine ⟨_, by unfold LayoutThread.exitRun; rw [heq]; rfl, rfl, ?_⟩
    intro p hp
    exact LayoutThread.deref_filter_mem s _ p hp

theorem stop_ends_loop_witness :
    (LayoutThread.init.run boundedFactory [.add 2 0, .add 3 1, .work]).state.stop =
      .ok (LayoutThread.init.run boundedFactory [.add 2 0, .add 3 1, .work, .stop]).state ∧
    (LayoutThread.init.run boundedFactory
      [.add 2 0, .add 3 1, .work, .stop, .work, .work, .work]).state.worker = .finished ∧
    (LayoutThread.init.run boundedFactory
      [.add 2 0, .add 3 1, .work, .stop, .work, .work]).state.passesWithin boundedFactory 9 ≤ 1 ∧
    ∃ t, (LayoutThread.init.run boundedFactory
        [.add 2 0, .add 3 1, .work, .stop, .work, .work]).state.exitRun = .ok t ∧
      t.worker = .finished ∧ t.deref 0 = none :=
  have h := stop_ends_loop boundedFactory
    (LayoutThread.init.run boundedFactory [.add 2 0, .add 3 1, .work]).state
    (LayoutThread.init.run boundedFactory [.add 2 0, .add 3 1, .work, .stop]).state
    (LayoutThread.init.run boundedFactory [.add 2 0, .add 3 1, .work, .stop, .work, .work]).state
    [.work, .work] rfl rfl
  ⟨rfl, rfl, h.2.1 9, (h.2.2.2.2 (by decide) (by decide)).choose,
    (h.2.2.2.2 (by decide) (by decide)).choose_spec.1,
    (h.2.2.2.2 (by decide) (by decide)).choose_spec.2.1,
    (h.2.2.2.2 (by decide) (by decide)).choose_spec.2.2 0 (by decide)⟩

/-- C15, as stated, fails on the code: stop() is called first, then add(1) creates an instance
and starts the thread, whose first sections are a pass: `execute()` is called on the instance
added after stop(). -/
theorem add_after_stop_is_executed :
    ∃ s t, LayoutThread.init.stop = .ok s ∧ s._stop = true ∧
      LayoutThread.run boundedFactory [.add 1 0, .work, .work] s = .ok t ∧
      t._stop = true ∧ QMap.find t.layouts 1 = some 0 ∧ t.executions 0 = 1 :=
  ⟨_, _, rfl, rfl, rfl, rfl, rfl, rfl⟩

/-- C15, amended: after stop() has been called no later sequence of add, remove, pause,
pauseAndWait, resume and stop calls and worker sections clears the stop request, and between
two calls of the client the worker begins at most one pass. -/
theorem stop_request_stays (F : LayoutFactory) (s t : LayoutThread) (es : List Event)
    (hs : s._stop = true) (h : s.run F es = .ok t) :
    t._stop = true ∧ ∀ n, t.passesWithin F n ≤ 1 := by
  have ht : t._stop = true := (LayoutThread.run_stop F es s hs).of_eq h
  exact ⟨ht, fun n => LayoutThread.passesWithin_le_one F n t (Or.inr ht)⟩

theorem stop_request_stays_witness :
    (LayoutThread.run boundedFactory [.add 1 0, .work, .resume, .pause, .work, .work, .add 2 1]
      LayoutThread.init.stop.state).state._stop = true :=
  (stop_request_stays boundedFactory LayoutThread.init.stop.state
    (LayoutThread.run boundedFactory [.add 1 0, .work, .resume, .pause, .work, .work, .add 2 1]
      LayoutThread.init.stop.state).state
    [.add 1 0, .work, .resume, .pause, .work, .work, .add 2 1] rfl rfl).1

/-! ## One pass of the worker loop -/

namespace LayoutThread

theorem deref_update (s : LayoutThread) (r p : Ptr) (f : Layout → Layout) :
    (s.update r f).deref p = (s.deref p).map (fun l => if p = r then f l else l) :=
  deref_map_heap s f (fun a => a = r) p

theorem passStep_other (F : LayoutFactory) (s t : LayoutThread) (r p : Ptr) (hne : r ≠ p)
    (h : s.passStep F r = .ok t) : t.deref p = s.deref p ∧ t.remaining p = s.remaining p := by
  have hd : (s.update r (Layout.execute F)).deref p = s.deref p := by
    rw [deref_update]
    cases s.deref p with
    | none => rfl
    | some l => simp [Ne.symm hne]
  unfold LayoutThread.passStep at h
  cases hr : s.deref r with
  | none => rw [hr] at h; exact Outcome.noConfusion h
  | some l =>
    rw [hr] at h
    simp only at h
    split_ifs at h with h1 h2 h3 h4
    all_goals
      have ht := (Outcome.ok.inj h).symm
      subst ht
    · exact ⟨rfl, rfl⟩
    · refine ⟨hd, ?_⟩
      show (QMap.find (QMap.insert _ r _) p).getD 0 = _
      rw [QMap.find_insert_ne _ _ _ _ (Ne.symm hne)]
      rfl
    · exact ⟨hd, rfl⟩
    · refine ⟨rfl, ?_⟩
      show (QMap.find (QMap.insert _ r _) p).getD 0 = _
      rw [QMap.find_insert_ne _ _ _ _ (Ne.symm hne)]
      rfl
    · exact ⟨rfl, rfl⟩

theorem remaining_insert_self (s : LayoutThread) (h : List (Ptr × Layout)) (p : Ptr) (v : Int) :
    LayoutThread.remaining
      { s with iterationsRemaining := QMap.insert s.iterationsRemaining p v, heap := h } p = v := by
  show (QMap.find (QMap.insert _ p _) p).getD 0 = _
  rw [QMap.find_insert_self]
  rfl

theorem passStep_self (F : LayoutFactory) (s t : LayoutThread) (p : Ptr) (l : Layout)
    (hl : s.deref p = some l) (h : s.passStep F p = .ok t) :
    t.deref p =
      some (if F.shouldPause l.state = false ∧ s.remaining p ≠ 0 then l.execute F else l) ∧
    t.remaining p =
      (if F.shouldPause l.state = false ∧ s.remaining p ≠ Layout.Unbounded
        then s.remaining p - 1 else s.remaining p) := by
  have hd : (s.update p (Layout.execute F)).deref p = some (l.execute F) := by
    rw [deref_update, hl]
    simp
  unfold LayoutThread.passStep at h
  rw [hl] at h
  simp only at h
  by_cases hb : F.shouldPause l.state = true
  · rw [if_pos hb] at h
    have ht := (Outcome.ok.inj h).symm
    subst ht
    simp [hb, hl]
  · rw [if_neg hb] at h
    have hb2 : F.shouldPause l.state = false := by simpa using hb
    by_cases hz : s.remaining p = 0
    · have hu : s.remaining p ≠ Layout.Unbounded := by
        rw [hz]; decide
      rw [if_neg (not_not.2 hz), if_pos hu] at h
      have ht := (Outcome.ok.inj h).symm
      subst ht
      refine ⟨?_, ?_⟩
      · rw [if_neg (fun hc => hc.2 hz)]
        exact hl
      · rw [if_pos ⟨hb2, hu⟩]
        exact remaining_insert_self s s.heap p _
    · rw [if_pos hz] at h
      have hrem : (s.update p (Layout.execute F)).remaining p = s.remaining p := rfl
      rw [hrem] at h
      by_cases hu : s.remaining p = Layout.Unbounded
      · rw [if_neg (not_not.2 hu)] at h
        have ht := (Outcome.ok.inj h).symm
        subst ht
        refine ⟨?_, ?_⟩
        · rw [if_pos ⟨hb2, hz⟩]
          exact hd
        · rw [if_neg (fun hc => hc.2 hu)]
          rfl
      · rw [if_pos hu] at h
        have ht := (Outcome.ok.inj h).symm
        subst ht
        refine ⟨?_, ?_⟩
        · rw [if_pos ⟨hb2, hz⟩]
          exact hd
        · rw [if_pos ⟨hb2, hu⟩]
          exact remaining_insert_self s (s.update p (Layout.execute F)).heap p _

end LayoutThread

namespace LayoutThread

theorem passLoop_not_mem (F : LayoutFactory) (ps : List Ptr) (s t : LayoutThread) (p : Ptr)
    (hp : p ∉ ps) (h : s.passLoop F ps = .ok t) :
    t.deref p = s.deref p ∧ t.remaining p = s.remaining p := by
  induction ps generalizing s with
  | nil =>
    have ht := (Outcome.ok.inj h).symm
    subst ht
    exact ⟨rfl, rfl⟩
  | cons r ps ih =>
    obtain ⟨s1, h1, h2⟩ := Outcome.bind_eq_ok h
    have hne : r ≠ p := fun hrp => hp (hrp ▸ List.mem_cons_self _ _)
    have hstep := passStep_other F s s1 r p hne h1
    have hrest := ih s1 (fun hm => hp (List.mem_cons_of_mem _ hm)) h2
    exact ⟨hrest.1.trans hstep.1, hrest.2.trans hstep.2⟩

/-- What one run of the `for` loop over pairwise different addresses does to the instance at
`p` and to its counter. -/
theorem passLoop_nodup (F : LayoutFactory) (ps : List Ptr) (s t : LayoutThread) (p : Ptr)
    (l : Layout) (hnd : ps.Nodup) (hl : s.deref p = some l) (h : s.passLoop F ps = .ok t) :
    t.deref p =
      some (if p ∈ ps ∧ F.shouldPause l.state = false ∧ s.remaining p ≠ 0
        then l.execute F else l) ∧
    t.remaining p =
      (if p ∈ ps ∧ F.shouldPause l.state = false ∧ s.remaining p ≠ Layout.Unbounded
        then s.remaining p - 1 else s.remaining p) := by
  induction ps generalizing s with
  | nil =>
    have ht := (Outcome.ok.inj h).symm
    subst ht
    simp [hl]
  | cons r ps ih =>
    obtain ⟨hr, hnd2⟩ := List.nodup_cons.1 hnd
    obtain ⟨s1, h1, h2⟩ := Outcome.bind_eq_ok h
    by_cases hrp : r = p
    · subst hrp
      have hstep := passStep_self F s s1 r l hl h1
      have hrest := passLoop_not_mem F ps s1 t r hr h2
      rw [hrest.1, hrest.2, hstep.1, hstep.2]
      simp
    · have hstep := passStep_other F s s1 r p hrp h1
      have hrest := ih s1 hnd2 (hstep.1.trans hl) h2
      rw [hrest.1, hrest.2, hstep.2]
      have hmem : p ∈ r :: ps ↔ p ∈ ps := by
        simp [List.mem_cons, Ne.symm hrp]
      simp only [hmem]
      exact ⟨trivial, trivial⟩

theorem passStep_live (F : LayoutFactory) (s : LayoutThread) (r : Ptr)
    (hr : (s.deref r).isSome = true) :
    ∃ t, s.passStep F r = .ok t ∧ ∀ q, (s.deref q).isSome = true → (t.deref q).isSome = true := by
  obtain ⟨l, hl⟩ := Option.isSome_iff_exists.1 hr
  have hup : ∀ q, (s.deref q).isSome = true →
      ((s.update r (Layout.execute F)).deref q).isSome = true := by
    intro q hq
    rw [deref_update]
    simpa using hq
  unfold LayoutThread.passStep
  rw [hl]
  simp only
  split_ifs
  · exact ⟨_, rfl, fun q hq => hq⟩
  · exact ⟨_, rfl, hup⟩
  · exact ⟨_, rfl, hup⟩
  · exact ⟨_, rfl, fun q hq => hq⟩
  · exact ⟨_, rfl, fun q hq => hq⟩

/-- The `for` loop over live instances returns. -/
theorem passLoop_live (F : LayoutFactory) (ps : List Ptr) (s : LayoutThread)
    (h : ∀ p ∈ ps, (s.deref p).isSome = true) : ∃ t, s.passLoop F ps = .ok t := by
  induction ps generalizing s with
  | nil => exact ⟨s, rfl⟩
  | cons r ps ih =>
    obtain ⟨s1, h1, hlive⟩ := passStep_live F s r (h r (List.mem_cons_self _ _))
    obtain ⟨t, ht⟩ := ih s1 (fun q hq => hlive q (h q (List.mem_cons_of_mem _ hq)))
    exact ⟨t, by unfold LayoutThread.passLoop; rw [h1]; exact ht⟩

theorem executions_of_deref (s : LayoutThread) (p : Ptr) (l : Layout) (h : s.deref p = some l) :
    s.executions p = l.executions := by
  unfold LayoutThread.executions
  rw [h]

end LayoutThread

/-- What a pass does in a state whose tracked addresses are live and pairwise different: it
returns, and for every tracked instance the number of `execute()` calls grows by exactly one
when the instance does not report `shouldPause()` and its counter is not 0, and not at all
otherwise. -/
theorem LayoutThread.pass_executions (F : LayoutFactory) (s : LayoutThread)
    (hnd : (QMap.values s.layouts).Nodup)
    (hlive : ∀ p ∈ QMap.values s.layouts, (s.deref p).isSome = true) :
    ∃ t, s.pass F = .ok t ∧
      ∀ p ∈ QMap.values s.layouts, ∀ l, s.deref p = some l →
        t.executions p = s.executions p +
          (if F.shouldPause l.state = false ∧ s.remaining p ≠ 0 then 1 else 0) := by
  obtain ⟨t, ht⟩ := LayoutThread.passLoop_live F _ s hlive
  refine ⟨t, ht, ?_⟩
  intro p hp l hl
  have h := (LayoutThread.passLoop_nodup F _ s t p l hnd hl ht).1
  rw [LayoutThread.executions_of_deref s p l hl, LayoutThread.executions_of_deref t p _ h]
  by_cases hact : F.shouldPause l.state = false ∧ s.remaining p ≠ 0
  · rw [if_pos ⟨hp, hact⟩, if_pos hact]
    rfl
  · rw [if_neg (fun hc => hact hc.2), if_neg hact]
    rfl

/-- C17, evaluated on the code.  `aliasedExample` is reached by add(1), the worker running until
it leaves its loop, and add(2) with `new` returning the address 0 of the instance the worker has
deleted: `layouts.values()` is the list of the address 0 twice, and the one live instance, that
of component 2, has the counter 3.  The pass the worker makes next, three sections long, calls
`execute()` on that instance twice. -/
theorem pass_executes_aliased_instance_twice :
    LayoutThread.init.run boundedFactory [.add 1 0, .work, .work, .work, .work, .add 2 0] =
      .ok aliasedExample ∧
    QMap.values aliasedExample.layouts = [0, 0] ∧
    aliasedExample.deref 0 = some (boundedFactory.create 2) ∧
    aliasedExample.liveInstances 2 = 1 ∧ aliasedExample.liveInstances 1 = 0 ∧
    aliasedExample.executions 0 = 0 ∧ aliasedExample.remaining 0 = 3 ∧
    aliasedExample.passesWithin boundedFactory 3 = 1 ∧
    (∃ t, aliasedExample.run boundedFactory [.work, .work, .work] = .ok t ∧
      t.worker = .passDone ∧ t.executions 0 = 2 ∧ t.remaining 0 = 1) ∧
    ∃ t, aliasedExample.pass boundedFactory = .ok t ∧ t.executions 0 = 2 :=
  ⟨rfl, rfl, rfl, rfl, rfl, rfl, rfl, rfl, ⟨_, rfl, rfl, rfl, rfl⟩, _, rfl, rfl⟩

/-! ## Fairness between unbounded instances -/

namespace LayoutThread

/-- A run of the `for` loop over pairwise different addresses, seen from an instance with an
unbounded count that does not report `shouldPause()`. -/
theorem passLoop_unbounded (F : LayoutFactory) (ps : List Ptr) (s t : LayoutThread) (p : Ptr)
    (l : Layout) (hnd : ps.Nodup) (hl : s.deref p = some l)
    (hu : s.remaining p = Layout.Unbounded) (hn : F.shouldPause l.state = false)
    (h : s.passLoop F ps = .ok t) :
    t.remaining p = Layout.Unbounded ∧
    ∃ l2, t.deref p = some l2 ∧
      l2.executions = l.executions + (if p ∈ ps then 1 else 0) ∧
      l2.state = (if p ∈ ps then F.executeReal l.state else l.state) := by
  have hz : s.remaining p ≠ 0 := by rw [hu]; decide
  obtain ⟨h1, h2⟩ := passLoop_nodup F ps s t p l hnd hl h
  refine ⟨?_, _, h1, ?_, ?_⟩
  · rw [h2, if_neg (fun hc => hc.2.2 hu)]
    exact hu
  · by_cases hm : p ∈ ps
    · rw [if_pos ⟨hm, hn, hz⟩, if_pos hm]
      rfl
    · rw [if_neg (fun hc => hm hc.1), if_neg hm]
      rfl
  · by_cases hm : p ∈ ps
    · rw [if_pos ⟨hm, hn, hz⟩, if_pos hm]
      rfl
    · rw [if_neg (fun hc => hm hc.1), if_neg hm]

/-- The instance at `p` after `T` whole passes, when its count is unbounded and it never
reports `shouldPause()`. -/
theorem passes_unbounded (F : LayoutFactory) (T : Nat) (s t : LayoutThread) (p : Ptr)
    (l : Layout) (hnd : (QMap.values s.layouts).Nodup) (hp : p ∈ QMap.values s.layouts)
    (hl : s.deref p = some l) (hu : s.remaining p = Layout.Unbounded)
    (hn : ∀ j, F.shouldPause (F.executeReal^[j] l.state) = false)
    (h : s.passes F T = .ok t) :
    t.layouts = s.layouts ∧ t.remaining p = Layout.Unbounded ∧
    ∃ l2, t.deref p = some l2 ∧ l2.executions = l.executions + T ∧
      l2.state = F.executeReal^[T] l.state := by
  induction T generalizing s l with
  | zero =>
    have ht := (Outcome.ok.inj h).symm
    subst ht
    exact ⟨rfl, hu, l, hl, rfl, rfl⟩
  | succ T ih =>
    obtain ⟨s1, h1, h2⟩ := Outcome.bind_eq_ok h
    have hlay : s1.layouts = s.layouts := (passLoop_layouts F _ s).of_eq h1
    obtain ⟨hu1, l1, hl1, he1, hs1⟩ :=
      passLoop_unbounded F _ s s1 p l hnd hl hu (hn 0) h1
    rw [if_pos hp] at he1 hs1
    have hn1 : ∀ j, F.shouldPause (F.executeReal^[j] l1.state) = false := by
      intro j
      rw [hs1, ← Function.iterate_succ_apply]
      exact hn (j + 1)
    obtain ⟨hlay2, hu2, l2, hl2, he2, hs2⟩ :=
      ih s1 l1 (by rw [hlay]; exact hnd) (by rw [hlay]; exact hp) hl1 hu1 hn1 h2
    refine ⟨hlay2.trans hlay, hu2, l2, hl2, ?_, ?_⟩
    · rw [he2, he1]
      omega
    · rw [hs2, hs1, ← Function.iterate_succ_apply]

/-- The number of `execute()` calls on an unbounded instance that never reports
`shouldPause()`, after `T` whole passes and the first `k` places of the next one. -/
theorem executions_unbounded (F : LayoutFactory) (T k : Nat) (s t : LayoutThread) (p : Ptr)
    (l : Layout) (hnd : (QMap.values s.layouts).Nodup) (hp : p ∈ QMap.values s.layouts)
    (hl : s.deref p = some l) (hu : s.remaining p = Layout.Unbounded)
    (hn : ∀ j, F.shouldPause (F.executeReal^[j] l.state) = false)
    (h : (s.passes F T).bind (fun u => u.passLoop F ((QMap.values u.layouts).take k)) = .ok t) :
    t.executions p =
      s.executions p + T + (if p ∈ (QMap.values s.layouts).take k then 1 else 0) := by
  obtain ⟨u, h1, h2⟩ := Outcome.bind_eq_ok h
  obtain ⟨hlay, hu1, l1, hl1, he1, hs1⟩ := passes_unbounded F T s u p l hnd hp hl hu hn h1
  rw [hlay] at h2
  have hnd2 : ((QMap.values s.layouts).take k).Nodup := hnd.sublist (List.take_sublist _ _)
  obtain ⟨_, l2, hl2, he2, _⟩ :=
    passLoop_unbounded F _ u t p l1 hnd2 hl1 hu1 (by rw [hs1]; exact hn T) h2
  rw [executions_of_deref t p l2 hl2, executions_of_deref s p l hl, he2, he1]

end LayoutThread

/-- C16, evaluated on the code.  With a factory whose instances never report `shouldPause()`,
add(1) of an instance with one iteration, the worker running until it leaves its loop, then
add(2) with `new` returning the address 0 of the deleted instance, and add(3): the instances of
components 2 and 3 both have the count `Layout::Unbounded`, and `layouts.values()` lists the
address of the first twice.  In each pass the worker makes from there, five sections long,
`execute()` is called twice on the instance of component 2 and once on that of component 3:
after three passes the numbers of calls are 6 and 3. -/
theorem aliased_unbounded_instance_runs_twice_as_often :
    (∀ n, mixedFactory.shouldPause n = false) ∧
    ∃ s t, LayoutThread.init.run mixedFactory
        [.add 1 0, .work, .work, .work, .work, .add 2 0, .add 3 1] = .ok s ∧
      QMap.find s.layouts 2 = some 0 ∧ QMap.find s.layouts 3 = some 1 ∧
      QMap.values s.layouts = [0, 0, 1] ∧
      s.deref 0 = some (mixedFactory.create 2) ∧ s.deref 1 = some (mixedFactory.create 3) ∧
      s.remaining 0 = Layout.Unbounded ∧ s.remaining 1 = Layout.Unbounded ∧
      s.executions 0 = 0 ∧ s.executions 1 = 0 ∧
      s.passesWithin mixedFactory 15 = 3 ∧
      s.run mixedFactory (List.replicate 15 .work) = .ok t ∧ t.worker = .running ∧
      t.executions 0 = 6 ∧ t.executions 1 = 3 :=
  ⟨fun _ => rfl, _, _, rfl, rfl, rfl, rfl, rfl, rfl, rfl, rfl, rfl, rfl, rfl, rfl, rfl, rfl, rfl⟩

/-! ## The convergence phase of the force-directed layout -/

/-- C21: a force-directed instance reports `shouldPause()` exactly in the phase Finished: true
there, false in Initial, FineTune and Oscillate; a freshly constructed instance is in the phase
Initial and does not report it. -/
theorem forceDirected_shouldPause (R : Type) [Zero R] (l : ForceDirectedLayout R) :
    (l.shouldPause = true ↔ l._changeDetectionPhase = .Finished) ∧
    ({ l with _changeDetectionPhase := .Finished }).shouldPause = true ∧
    ({ l with _changeDetectionPhase := .Initial }).shouldPause = false ∧
    ({ l with _changeDetectionPhase := .FineTune }).shouldPause = false ∧
    ({ l with _changeDetectionPhase := .Oscillate }).shouldPause = false ∧
    (ForceDirectedLayout.new R)._changeDetectionPhase = .Initial ∧
    (ForceDirectedLayout.new R).shouldPause = false := by
  refine ⟨?_, rfl, rfl, rfl, rfl, rfl, rfl⟩
  simp [ForceDirectedLayout.shouldPause, ForceDirectedLayout.finished]

/-- C22: `unfinish()` on an instance in the phase Finished leaves it in the phase Initial with
the three sample buffers empty and `shouldPause()` false; and whatever happens to the instance
afterwards, `shouldPause()` is false in every state whose phase is not Finished. -/
theorem unfinish_resets (R : Type) (l l2 : ForceDirectedLayout R)
    (h : l._changeDetectionPhase = .Finished) :
    l.shouldPause = true ∧
    l.unfinish._changeDetectionPhase = .Initial ∧
    l.unfinish._prevStdDevs = [] ∧ l.unfinish._prevAvgForces = [] ∧
    l.unfinish._prevCaptureStdDevs = [] ∧
    l.unfinish.shouldPause = false ∧
    (l2.shouldPause = true → l2._changeDetectionPhase = .Finished) := by
  refine ⟨?_, rfl, rfl, rfl, rfl, rfl, ?_⟩
  · simp [ForceDirectedLayout.shouldPause, ForceDirectedLayout.finished, h]
  · simp [ForceDirectedLayout.shouldPause, ForceDirectedLayout.finished]

theorem unfinish_resets_witness :
    ({ ForceDirectedLayout.new Int with
        _changeDetectionPhase := .Finished, _prevStdDevs := [3, 4] }).unfinish._prevStdDevs = [] ∧
    ({ ForceDirectedLayout.new Int with
        _changeDetectionPhase := .Finished, _prevStdDevs := [3, 4] }).unfinish.shouldPause =
      false :=
  have h := unfinish_resets Int
    { ForceDirectedLayout.new Int with _changeDetectionPhase := .Finished, _prevStdDevs := [3, 4] }
    (ForceDirectedLayout.new Int) rfl
  ⟨h.2.2.1, h.2.2.2.2.2.1⟩

/-! ## The order on undirected edges -/

theorem UndirectedEdge.new_comm (a b : NodeId) : UndirectedEdge.new a b = UndirectedEdge.new b a := by
  unfold UndirectedEdge.new
  rcases lt_trichotomy a b with h | h | h
  · rw [if_neg (not_lt.2 (le_of_lt h)), if_pos h]
  · subst h; rfl
  · rw [if_pos h, if_neg (not_lt.2 (le_of_lt h))]

theorem UndirectedEdge.lt_iff (e f : UndirectedEdge) :
    e.lt f = true ↔ e.lo < f.lo ∨ (e.lo = f.lo ∧ e.hi < f.hi) := by
  unfold UndirectedEdge.lt
  by_cases h : e.lo = f.lo
  · simp [h]
  · simp [h]

/-- C30: `UndirectedEdge(a, b)` stores `(min(a,b), max(a,b))`, so both orientations give the
same object and neither is less than the other; `operator<` is the lexicographic order on the
stored pair, which is irreflexive, transitive and total on distinct pairs. -/
theorem undirectedEdge_order (a b : NodeId) (e f g : UndirectedEdge) :
    (UndirectedEdge.new a b).lo = min a b ∧ (UndirectedEdge.new a b).hi = max a b ∧
    UndirectedEdge.new a b = UndirectedEdge.new b a ∧
    (UndirectedEdge.new a b).lt (UndirectedEdge.new b a) = false ∧
    (UndirectedEdge.new b a).lt (UndirectedEdge.new a b) = false ∧
    (e.lt f = true ↔ e.lo < f.lo ∨ (e.lo = f.lo ∧ e.hi < f.hi)) ∧
    e.lt e = false ∧
    (e.lt f = true → f.lt g = true → e.lt g = true) ∧
    (e ≠ f → e.lt f = true ∨ f.lt e = true) := by
  have hirr : ∀ x : UndirectedEdge, x.lt x = false := by
    intro x
    simp [UndirectedEdge.lt]
  refine ⟨?_, ?_, UndirectedEdge.new_comm a b, ?_, ?_, UndirectedEdge.lt_iff e f, hirr e, ?_, ?_⟩
  · unfold UndirectedEdge.new
    split_ifs with h
    · exact (min_eq_right (le_of_lt h)).symm
    · exact (min_eq_left (not_lt.1 h)).symm
  · unfold UndirectedEdge.new
    split_ifs with h
    · exact (max_eq_left (le_of_lt h)).symm
    · exact (max_eq_right (not_lt.1 h)).symm
  · rw [UndirectedEdge.new_comm a b]
    exact hirr _
  · rw [UndirectedEdge.new_comm a b]
    exact hirr _
  · intro h1 h2
    rw [UndirectedEdge.lt_iff] at h1 h2 ⊢
    rcases h1 with h1 | ⟨h1, h1b⟩ <;> rcases h2 with h2 | ⟨h2, h2b⟩
    · exact Or.inl (lt_trans h1 h2)
    · exact Or.inl (h2 ▸ h1)
    · exact Or.inl (h1 ▸ h2)
    · exact Or.inr ⟨h1.trans h2, lt_trans h1b h2b⟩
  · intro hne
    rw [UndirectedEdge.lt_iff, UndirectedEdge.lt_iff]
    rcases lt_trichotomy e.lo f.lo with h | h | h
    · exact Or.inl (Or.inl h)
    · rcases lt_trichotomy e.hi f.hi with h2 | h2 | h2
      · exact Or.inl (Or.inr ⟨h, h2⟩)
      · exfalso
        apply hne
        cases e
        cases f
        simp only at h h2
        subst h h2
        rfl
      · exact Or.inr (Or.inr ⟨h.symm, h2⟩)
    · exact Or.inr (Or.inl h)

theorem undirectedEdge_order_witness :
    (UndirectedEdge.new 5 3).lt (UndirectedEdge.new 3 7) = true ∧
    (UndirectedEdge.new 3 7).lt (UndirectedEdge.new 9 4) = true ∧
    (UndirectedEdge.new 5 3).lt (UndirectedEdge.new 9 4) = true ∧
    UndirectedEdge.new 5 3 = UndirectedEdge.new 3 5 :=
  have h := undirectedEdge_order 5 3 (UndirectedEdge.new 5 3) (UndirectedEdge.new 3 7)
    (UndirectedEdge.new 9 4)
  ⟨by decide, by decide, h.2.2.2.2.2.2.2.1 (by decide) (by decide), h.2.2.1⟩

/-! ## Termination of the worker loop and the unbounded sentinel -/

/-- C24, evaluated on the code: component 1 is registered with the count 1 and component 2
with the count 3, no instance ever reports `shouldPause()`, and neither pause nor stop is
requested.  After max(1, 3) = 3 passes the worker is back at the loop head and
`workRemaining()` is still true; after twenty passes it is still in the loop, both counters
hold `Layout::Unbounded` and both instances are executed in every pass. -/
theorem run_does_not_exit_after_max_passes :
    (boundedFactory.create 1).iterations = 1 ∧ (boundedFactory.create 2).iterations = 3 ∧
    (∃ s, LayoutThread.init.run boundedFactory
        ([.add 1 0, .add 2 1] ++ List.replicate 12 .work) = .ok s ∧
      s.worker = .running ∧ s.workRemaining = true ∧ s._pause = false ∧ s._stop = false ∧
      s.executions 1 = 3) ∧
    ∃ s, LayoutThread.init.run boundedFactory
        ([.add 1 0, .add 2 1] ++ List.replicate 80 .work) = .ok s ∧
      s.worker = .running ∧ s.workRemaining = true ∧
      s.remaining 0 = Layout.Unbounded ∧ s.remaining 1 = Layout.Unbounded ∧
      s.executions 0 = 19 ∧ s.executions 1 = 19 :=
  ⟨rfl, rfl, ⟨_, rfl, rfl, rfl, rfl, rfl, rfl⟩, ⟨_, rfl, rfl, rfl, rfl, rfl, rfl, rfl⟩⟩

namespace LayoutThread

/-- A pass never changes a counter that holds `Layout::Unbounded`, and with such a counter
tracked `workRemaining()` is true after the pass. -/
theorem pass_keeps_unbounded (F : LayoutFactory) (s t : LayoutThread) (p : Ptr) (l : Layout)
    (hnd : (QMap.values s.layouts).Nodup) (hp : p ∈ QMap.values s.layouts)
    (hl : s.deref p = some l) (hu : s.remaining p = Layout.Unbounded)
    (h : s.pass F = .ok t) :
    t.remaining p = Layout.Unbounded ∧ t.workRemaining = true ∧ t.layouts = s.layouts ∧
      (t.deref p).isSome = true := by
  obtain ⟨h1, h2⟩ := passLoop_nodup F _ s t p l hnd hl h
  have hlay : t.layouts = s.layouts := (passLoop_layouts F _ s).of_eq h
  have hrem : t.remaining p = Layout.Unbounded := by
    rw [h2, if_neg (fun hc => hc.2.2 hu)]
    exact hu
  refine ⟨hrem, ?_, hlay, by rw [h1]; rfl⟩
  unfold LayoutThread.workRemaining
  rw [List.any_eq_true]
  refine ⟨p, by rw [hlay]; exact hp, ?_⟩
  rw [hrem]
  decide

/-- A parked worker does nothing, however many sections it is given. -/
theorem run_work_parked (F : LayoutFactory) (n : Nat) (s : LayoutThread)
    (h : s.worker = .parked) : s.run F (List.replicate n .work) = .ok s := by
  induction n with
  | zero => rfl
  | succ n ih =>
    have hstep : s.workerStep F = .ok s := by
      unfold LayoutThread.workerStep
      simp only [h]
    simp only [List.replicate_succ, LayoutThread.run, LayoutThread.apply, hstep, Outcome.bind]
    exact ih

end LayoutThread

/-- C27, evaluated on the code: the counter of component 1 is registered as the bounded
non-negative count 1.  It is 0 after the first pass and, because component 2 keeps the loop
going, `Layout::Unbounded` after the second: the pass decrements a counter that is 0. -/
theorem bounded_counter_becomes_unbounded :
    (boundedFactory.create 1).iterations = 1 ∧
    (∃ s, LayoutThread.init.run boundedFactory [.add 1 0, .add 2 1] = .ok s ∧
      s.remaining 0 = 1) ∧
    (∃ s, LayoutThread.init.run boundedFactory
        ([.add 1 0, .add 2 1] ++ List.replicate 4 .work) = .ok s ∧
      s.worker = .running ∧ s.remaining 0 = 0) ∧
    ∃ s, LayoutThread.init.run boundedFactory
        ([.add 1 0, .add 2 1] ++ List.replicate 8 .work) = .ok s ∧
      s.worker = .running ∧ QMap.find s.layouts 1 = some 0 ∧
      s.remaining 0 = Layout.Unbounded :=
  ⟨rfl, ⟨_, rfl, rfl⟩, ⟨_, rfl, rfl, rfl⟩, ⟨_, rfl, rfl, rfl, rfl⟩⟩

/-- C28, evaluated on the code: after add(1) the worker makes a pass in which the instance
converges; stop() is called before the worker enters the end-of-pass block.  There every
instance reports `shouldPause()`, so with the stop flag set the worker sets the parked flag and
blocks in `waitForResume.wait`; the wake-up of stop() has already gone by, and the worker stays
parked whatever number of sections it is given. -/
theorem worker_parks_after_stop :
    ∃ s t, LayoutThread.init.run convergingFactory [.add 1 0, .work, .work, .stop] = .ok s ∧
      s._stop = true ∧ s._pause = false ∧ s.worker = .passDone ∧ s._isPaused = false ∧
      s.allLayoutAlgorithmsShouldPause convergingFactory = some true ∧
      s.workerStep convergingFactory = .ok t ∧
      t.worker = .parked ∧ t._isPaused = true ∧ t._stop = true ∧
      ∀ n, t.run convergingFactory (List.replicate n .work) = .ok t :=
  ⟨_, _, rfl, rfl, rfl, rfl, rfl, rfl, rfl, rfl, rfl, rfl,
    fun n => LayoutThread.run_work_parked convergingFactory n _ rfl⟩

/-! ## The end-of-pass block -/

namespace LayoutThread

theorem exitRun_isPaused (s : LayoutThread) :
    s.exitRun.All (fun t => t._isPaused = s._isPaused ∧ t.worker = .finished) :=
  (deleteEach_flags _ s).bind (fun _ h1 => ⟨h1.2.2, rfl⟩)

/-- What the end-of-pass block does, by the two tests it makes. -/
theorem endOfPass_cases (F : LayoutFactory) (s t : LayoutThread) (h : s.endOfPass F = .ok t) :
    ((s._pause = true ∨ s.allLayoutAlgorithmsShouldPause F = some true) ∧
      t = { s with _isPaused := true, worker := .parked }) ∨
    ((s._pause = false ∧ s.allLayoutAlgorithmsShouldPause F = some false) ∧
      ((s._stop = false ∧ t = { s with worker := .running }) ∨
        (s._stop = true ∧ s.exitRun = .ok t))) := by
  unfold LayoutThread.endOfPass at h
  by_cases hp : s._pause = true
  · rw [if_pos hp] at h
    exact Or.inl ⟨Or.inl hp, (Outcome.ok.inj h).symm⟩
  · have hp2 : s._pause = false := by simpa using hp
    rw [if_neg hp] at h
    cases hall : s.allLayoutAlgorithmsShouldPause F with
    | none =>
      rw [hall] at h
      exact Outcome.noConfusion h
    | some b =>
      rw [hall] at h
      cases b with
      | true => exact Or.inl ⟨Or.inr rfl, (Outcome.ok.inj h).symm⟩
      | false =>
        simp only at h
        by_cases hst : s._stop = true
        · rw [if_pos hst] at h
          exact Or.inr ⟨⟨hp2, rfl⟩, Or.inr ⟨hst, h⟩⟩
        · rw [if_neg hst] at h
          exact Or.inr ⟨⟨hp2, rfl⟩, Or.inl ⟨by simpa using hst, (Outcome.ok.inj h).symm⟩⟩

/-- A section of the worker sets `_isPaused` only when it parks in the end-of-pass block. -/
theorem workerStep_isPaused (F : LayoutFactory) (s t : LayoutThread)
    (h : s.workerStep F = .ok t) (h0 : s._isPaused = false) (h1 : t._isPaused = true) :
    s.worker = .passDone ∧ t.worker = .parked ∧
      (s._pause = true ∨ s.allLayoutAlgorithmsShouldPause F = some true) := by
  have hx := exitRun_isPaused s
  have key : t._isPaused = s._isPaused → False := by
    intro heq
    rw [h0, h1] at heq
    exact Bool.noConfusion heq
  unfold LayoutThread.workerStep at h
  split at h
  · exfalso
    split_ifs at h
    · have ht := (Outcome.ok.inj h).symm
      subst ht
      exact key rfl
    · exact key (hx.of_eq h).1
  · exfalso
    have ht := (Outcome.ok.inj h).symm
    subst ht
    exact key rfl
  · exfalso
    obtain ⟨s1, hs1, hs2⟩ := Outcome.bind_eq_ok h
    have hf := (passStep_flags F _ s).of_eq hs1
    have ht := (Outcome.ok.inj hs2).symm
    subst ht
    exact key hf.2.2
  · next hw =>
    rcases endOfPass_cases F s t h with ⟨hc, ht⟩ | ⟨_, ⟨_, ht⟩ | ⟨_, ht⟩⟩
    · subst ht
      exact ⟨hw, rfl, hc⟩
    · subst ht
      exact (key rfl).elim
    · exact (key (hx.of_eq ht).1).elim
  · exfalso
    split_ifs at h
    · exact key (hx.of_eq h).1
    · have ht := (Outcome.ok.inj h).symm
      subst ht
      exact key rfl
  · exfalso
    have ht := (Outcome.ok.inj h).symm
    subst ht
    exact key rfl

theorem add_isPaused (F : LayoutFactory) (s : LayoutThread) (c : ComponentId) (p : Ptr) :
    (s.add F c p)._isPaused = s._isPaused := by
  unfold LayoutThread.add LayoutThread.start
  split_ifs
  · simp only
    split <;> rfl
  · rfl

theorem stop_isPaused (s : LayoutThread) : s.stop.All (fun t => t._isPaused = s._isPaused) := by
  refine (cancelEach_frame _ { s with _stop := true, _pause := false }).bind (fun s1 h1 => ?_)
  show s1.wakeWorker._isPaused = s._isPaused
  unfold LayoutThread.wakeWorker
  split
  · exact h1.2.2.1
  · exact h1.2.2.1

end LayoutThread

/-- C25, as stated, fails on the code: after add(2), one pass and stop(), the end-of-pass
block finds no pause request and an instance that does not report `shouldPause()`; the parked
flag is left as it was, but the loop does not continue: the worker leaves it and the thread
ends. -/
theorem end_of_pass_with_stop_leaves_loop :
    ∃ s t, LayoutThread.init.run boundedFactory [.add 2 0, .work, .work, .stop] = .ok s ∧
      s.worker = .passDone ∧ s._pause = false ∧
      s.allLayoutAlgorithmsShouldPause boundedFactory = some false ∧
      s.endOfPass boundedFactory = .ok t ∧
      t._isPaused = s._isPaused ∧ t.worker = .finished ∧ t.heap = [] :=
  ⟨_, _, rfl, rfl, rfl, rfl, rfl, rfl, rfl, rfl⟩

/-- C25, amended: the end-of-pass block parks the worker (sets `_isPaused`, then waits) exactly
when a pause is requested or every tracked instance reports `shouldPause()`; otherwise the
parked flag is left unchanged and the loop continues, unless stop has been requested, in which
case the worker leaves the loop.  `isPaused()` is false after construction, a section of the
worker sets the flag only in this parking step, and add, pause, stop and resume do not set
it. -/
theorem end_of_pass_parks_iff (F : LayoutFactory) (s t u v : LayoutThread) (c : ComponentId)
    (p : Ptr) (h : s.endOfPass F = .ok t) :
    (t.worker = .parked ↔
      (s._pause = true ∨ s.allLayoutAlgorithmsShouldPause F = some true)) ∧
    (t.worker = .parked → t = { s with _isPaused := true, worker := .parked }) ∧
    (t.worker ≠ .parked → t._isPaused = s._isPaused ∧
      (s._stop = false → t = { s with worker := .running }) ∧
      (s._stop = true → s.exitRun = .ok t ∧ t.worker = .finished)) ∧
    LayoutThread.init.isPaused = false ∧
    (u.workerStep F = .ok v → u._isPaused = false → v._isPaused = true →
      u.worker = .passDone ∧ v.worker = .parked ∧
        (u._pause = true ∨ u.allLayoutAlgorithmsShouldPause F = some true)) ∧
    (u.add F c p)._isPaused = u._isPaused ∧
    u.pause.All (fun w => w._isPaused = u._isPaused) ∧
    u.stop.All (fun w => w._isPaused = u._isPaused) ∧
    u.resume._isPaused = false := by
  have hx := LayoutThread.exitRun_isPaused s
  have hres : u.resume._isPaused = false := by
    unfold LayoutThread.resume LayoutThread.wakeWorker
    split <;> rfl
  refine ⟨?_, ?_, ?_, rfl, LayoutThread.workerStep_isPaused F u v,
    LayoutThread.add_isPaused F u c p,
    (LayoutThread.cancelEach_frame _ { u with _pause := true }).mono (fun _ hw => hw.2.2.1),
    LayoutThread.stop_isPaused u, hres⟩
  · rcases LayoutThread.endOfPass_cases F s t h with ⟨hc, ht⟩ | ⟨⟨hp, hall⟩, ⟨_, ht⟩ | ⟨_, ht⟩⟩
    · subst ht
      exact ⟨fun _ => hc, fun _ => rfl⟩
    · subst ht
      refine ⟨fun hw => Worker.noConfusion hw, fun hc => ?_⟩
      rcases hc with hc | hc
      · rw [hp] at hc; exact Bool.noConfusion hc
      · rw [hall] at hc; exact Bool.noConfusion (Option.some.inj hc)
    · have hw := (hx.of_eq ht).2
      refine ⟨fun hpk => ?_, fun hc => ?_⟩
      · rw [hw] at hpk; exact Worker.noConfusion hpk
      · rcases hc with hc | hc
        · rw [hp] at hc; exact Bool.noConfusion hc
        · rw [hall] at hc; exact Bool.noConfusion (Option.some.inj hc)
  · intro hw
    rcases LayoutThread.endOfPass_cases F s t h with ⟨_, ht⟩ | ⟨_, ⟨_, ht⟩ | ⟨_, ht⟩⟩
    · exact ht
    · subst ht
      exact Worker.noConfusion hw
    · rw [(hx.of_eq ht).2] at hw
      exact Worker.noConfusion hw
  · intro hw
    rcases LayoutThread.endOfPass_cases F s t h with ⟨_, ht⟩ | ⟨_, ⟨hst, ht⟩ | ⟨hst, ht⟩⟩
    · subst ht
      exact (hw rfl).elim
    · subst ht
      refine ⟨rfl, fun _ => rfl, fun h2 => ?_⟩
      rw [hst] at h2
      exact Bool.noConfusion h2
    · refine ⟨(hx.of_eq ht).1, fun h2 => ?_, fun _ => ⟨ht, (hx.of_eq ht).2⟩⟩
      rw [hst] at h2
      exact Bool.noConfusion h2

theorem end_of_pass_parks_iff_witness :
    (LayoutThread.init.run convergingFactory [.add 1 0, .work, .work, .work]).state.worker =
      .parked ∧
    (LayoutThread.init.run convergingFactory
      [.add 1 0, .work, .work]).state.allLayoutAlgorithmsShouldPause convergingFactory =
        some true :=
  have h := end_of_pass_parks_iff convergingFactory
    (LayoutThread.init.run convergingFactory [.add 1 0, .work, .work]).state
    (LayoutThread.init.run convergingFactory [.add 1 0, .work, .work, .work]).state
    LayoutThread.init LayoutThread.init 1 0 rfl
  ⟨h.1.2 (Or.inr rfl), rfl⟩

/-! ## Skipped instances and the order of a pass -/

/-- An instance that reports `shouldPause()` comes out of the `for` loop as it went in,
whatever the list of addresses the loop goes through. -/
theorem LayoutThread.passLoop_pausing (F : LayoutFactory) (ps : List Ptr) (s t : LayoutThread)
    (p : Ptr) (l : Layout) (hl : s.deref p = some l) (hpause : F.shouldPause l.state = true)
    (h : s.passLoop F ps = .ok t) : t.deref p = some l ∧ t.remaining p = s.remaining p := by
  have hne : ¬ F.shouldPause l.state = false := by
    rw [hpause]
    exact fun hc => Bool.noConfusion hc
  induction ps generalizing s with
  | nil =>
    have ht := (Outcome.ok.inj h).symm
    subst ht
    exact ⟨hl, rfl⟩
  | cons r ps ih =>
    obtain ⟨s1, h1, h2⟩ := Outcome.bind_eq_ok h
    have hstep : s1.deref p = some l ∧ s1.remaining p = s.remaining p := by
      by_cases hrp : r = p
      · subst hrp
        have hs := LayoutThread.passStep_self F s s1 r l hl h1
        rw [if_neg (fun hc => hne hc.1), if_neg (fun hc => hne hc.1)] at hs
        exact hs
      · have hs := LayoutThread.passStep_other F s s1 r p hrp h1
        exact ⟨hs.1.trans hl, hs.2⟩
    have hrest := ih s1 hstep.1 h2
    exact ⟨hrest.1, hrest.2.trans hstep.2⟩

/-- C26: in a state whose tracked instances are live a pass returns, and a tracked instance
that reports `shouldPause()` comes out of it as it went in: the object is unchanged (no
`execute()` was called on it) and so is its remaining-iteration counter. -/
theorem pass_skips_pausing_instance (F : LayoutFactory) (s : LayoutThread)
    (hlive : ∀ p ∈ QMap.values s.layouts, (s.deref p).isSome = true) :
    ∃ t, s.pass F = .ok t ∧
      ∀ p ∈ QMap.values s.layouts, ∀ l, s.deref p = some l → F.shouldPause l.state = true →
        t.deref p = some l ∧ t.remaining p = s.remaining p ∧
        t.executions p = s.executions p := by
  obtain ⟨t, ht⟩ := LayoutThread.passLoop_live F _ s hlive
  refine ⟨t, ht, ?_⟩
  intro p _ l hl hpause
  obtain ⟨h1, h2⟩ := LayoutThread.passLoop_pausing F _ s t p l hl hpause ht
  refine ⟨h1, h2, ?_⟩
  rw [LayoutThread.executions_of_deref t p l h1, LayoutThread.executions_of_deref s p l hl]

theorem pass_skips_pausing_instance_witness :
    ∃ t, (LayoutThread.init.run convergingFactory
        [.add 1 0, .add 2 1, .work, .work, .resume]).state.pass convergingFactory = .ok t ∧
      t.executions 0 = 1 ∧ t.remaining 0 = Layout.Unbounded :=
  have h := pass_skips_pausing_instance convergingFactory
    (LayoutThread.init.run convergingFactory [.add 1 0, .add 2 1, .work, .work, .resume]).state
    (by decide)
  ⟨h.choose, h.choose_spec.1,
    ((h.choose_spec.2 0 (by decide) _ rfl rfl).2.2).trans rfl,
    ((h.choose_spec.2 0 (by decide) _ rfl rfl).2.1).trans rfl⟩

theorem QMap.mem_keys_iff_contains {K V : Type} [LinearOrder K] (m : QMap K V) (k : K) :
    k ∈ QMap.keys m ↔ QMap.contains m k = true := by
  unfold QMap.keys QMap.contains
  rw [List.mem_map, List.any_eq_true]
  constructor
  · rintro ⟨e, he, hk⟩
    exact ⟨e, he, by simpa using hk⟩
  · rintro ⟨e, he, hk⟩
    exact ⟨e, he, by simpa using hk⟩

/-- In a map whose keys are in strictly ascending order the entry of a smaller key stands at a
smaller index. -/
theorem QMap.index_lt_of_key_lt {K V : Type} [LinearOrder K] (m : QMap K V)
    (hasc : (QMap.keys m).Pairwise (fun a b => a < b)) (k1 k2 : K) (v1 v2 : V) (hk : k1 < k2)
    (h1 : QMap.find m k1 = some v1) (h2 : QMap.find m k2 = some v2) :
    ∃ i j : Nat, i < j ∧ m[i]? = some (k1, v1) ∧ m[j]? = some (k2, v2) := by
  obtain ⟨i, hi⟩ := List.mem_iff_getElem?.1 (QMap.mem_of_find m k1 v1 h1)
  obtain ⟨j, hj⟩ := List.mem_iff_getElem?.1 (QMap.mem_of_find m k2 v2 h2)
  refine ⟨i, j, ?_, hi, hj⟩
  have hki : (QMap.keys m)[i]? = some k1 := by
    unfold QMap.keys
    rw [List.getElem?_map, hi]
    rfl
  have hkj : (QMap.keys m)[j]? = some k2 := by
    unfold QMap.keys
    rw [List.getElem?_map, hj]
    rfl
  rcases Nat.lt_trichotomy i j with h | h | h
  · exact h
  · subst h
    rw [hi] at hj
    have := congrArg Prod.fst (Option.some.inj hj)
    exact absurd this (ne_of_lt hk)
  · obtain ⟨hjl, hje⟩ := List.getElem?_eq_some.1 hkj
    obtain ⟨hil, hie⟩ := List.getElem?_eq_some.1 hki
    have := List.pairwise_iff_getElem.1 hasc j i hjl hil h
    rw [hje, hie] at this
    exact absurd this (not_lt_of_gt hk)

/-- Inside the `for` loop, with the elements `ps` left to visit and all of them live, the next
`ps.length` sections of the worker run the loop bodies of `ps`, in this order. -/
theorem LayoutThread.visits_loop (F : LayoutFactory) (ps : List Ptr) (s : LayoutThread)
    (hw : s.worker = Worker.loop ps) (hl : ∀ p ∈ ps, (s.deref p).isSome = true) :
    s.visits F ps.length = ps := by
  induction ps generalizing s with
  | nil => rfl
  | cons p ps ih =>
    have hw2 : s.worker = .inPass (p :: ps) := hw
    have hv : s.visiting = some p := by
      unfold LayoutThread.visiting
      rw [hw2]
    obtain ⟨s1, h1, hlive⟩ := LayoutThread.passStep_live F s p (hl p (List.mem_cons_self _ _))
    have hstep : s.workerStep F = .ok { s1 with worker := Worker.loop ps } := by
      unfold LayoutThread.workerStep
      rw [hw2]
      simp only [h1, Outcome.bind]
    show s.visiting.toList ++
      (match s.workerStep F with
        | .ok t => LayoutThread.visits F ps.length t
        | .blocked => []
        | .undefined => []
        | .excluded => []) = p :: ps
    rw [hv, hstep]
    show p :: LayoutThread.visits F ps.length { s1 with worker := Worker.loop ps } = p :: ps
    rw [ih { s1 with worker := Worker.loop ps } rfl
      (fun q hq => hlive q (hl q (List.mem_cons_of_mem _ hq)))]

/-- C29: in a reachable state let the worker stand at the loop head with work remaining and
all tracked instances live.  The loop bodies it runs in the pass it begins are those of
`layouts.values()`, in the order of the list; the keys of `layouts` are in strictly ascending
order of ComponentId, so the instance tracked under a smaller ComponentId is visited before the
instance tracked under a larger one; and a second reachable state that tracks the same
ComponentIds, in whatever order these were added, lists them in the same order. -/
theorem pass_visits_in_ascending_order (F : LayoutFactory) (es1 es2 : List Event)
    (s1 s2 : LayoutThread)
    (h1 : LayoutThread.init.run F es1 = .ok s1) (h2 : LayoutThread.init.run F es2 = .ok s2)
    (hsame : ∀ c, QMap.contains s1.layouts c = QMap.contains s2.layouts c)
    (hw : s1.worker = .running) (hwr : s1.workRemaining = true)
    (hlive : ∀ p ∈ QMap.values s1.layouts, (s1.deref p).isSome = true) :
    s1.visits F (s1.layouts.length + 1) = s1.layouts.map Prod.snd ∧
    (s1.layouts.map Prod.fst).Pairwise (fun a b => a < b) ∧
    (∀ c1 c2 p1 p2, c1 < c2 → QMap.find s1.layouts c1 = some p1 →
      QMap.find s1.layouts c2 = some p2 →
      ∃ i j : Nat, i < j ∧ (s1.visits F (s1.layouts.length + 1))[i]? = some p1 ∧
        (s1.visits F (s1.layouts.length + 1))[j]? = some p2) ∧
    s1.layouts.map Prod.fst = s2.layouts.map Prod.fst := by
  have hi1 := (LayoutThread.Inv.reachable F es1 s1 h1).ascending
  have hi2 := (LayoutThread.Inv.reachable F es2 s2 h2).ascending
  have hvis : s1.visits F (s1.layouts.length + 1) = s1.layouts.map Prod.snd := by
    have hstep : s1.workerStep F =
        .ok { s1 with worker := Worker.loop (QMap.values s1.layouts) } := by
      unfold LayoutThread.workerStep
      simp only [hw, hwr, if_true]
    have hv : s1.visiting = none := by
      unfold LayoutThread.visiting
      rw [hw]
    have hlen : s1.layouts.length = (QMap.values s1.layouts).length := by
      unfold QMap.values
      rw [List.length_map]
    show s1.visiting.toList ++
      (match s1.workerStep F with
        | .ok t => LayoutThread.visits F s1.layouts.length t
        | .blocked => []
        | .undefined => []
        | .excluded => []) = s1.layouts.map Prod.snd
    rw [hv, hstep, hlen]
    exact LayoutThread.visits_loop F (QMap.values s1.layouts)
      { s1 with worker := Worker.loop (QMap.values s1.layouts) } rfl hlive
  refine ⟨hvis, hi1, ?_, ?_⟩
  · intro c1 c2 p1 p2 hc hf1 hf2
    obtain ⟨i, j, hij, hi, hj⟩ := QMap.index_lt_of_key_lt s1.layouts hi1 c1 c2 p1 p2 hc hf1 hf2
    refine ⟨i, j, hij, ?_, ?_⟩
    · rw [hvis, List.getElem?_map, hi]
      rfl
    · rw [hvis, List.getElem?_map, hj]
      rfl
  · have hnd1 : (QMap.keys s1.layouts).Nodup := hi1.imp (fun hab => ne_of_lt hab)
    have hnd2 : (QMap.keys s2.layouts).Nodup := hi2.imp (fun hab => ne_of_lt hab)
    have hperm : (QMap.keys s1.layouts).Perm (QMap.keys s2.layouts) := by
      rw [List.perm_ext_iff_of_nodup hnd1 hnd2]
      intro c
      rw [QMap.mem_keys_iff_contains, QMap.mem_keys_iff_contains, hsame c]
    exact List.eq_of_perm_of_sorted hperm hi1 hi2

theorem pass_visits_in_ascending_order_witness :
    (LayoutThread.init.run boundedFactory [.add 3 0, .add 1 1, .add 2 2]).state.visits
      boundedFactory 4 = [1, 2, 0] ∧
    (LayoutThread.init.run boundedFactory [.add 3 0, .add 1 1, .add 2 2]).state.layouts.map
      Prod.fst = [1, 2, 3] ∧
    (LayoutThread.init.run boundedFactory [.add 2 0, .add 3 1, .add 1 2]).state.layouts.map
      Prod.fst = [1, 2, 3] :=
  have h := pass_visits_in_ascending_order boundedFactory [.add 3 0, .add 1 1, .add 2 2]
    [.add 2 0, .add 3 1, .add 1 2]
    (LayoutThread.init.run boundedFactory [.add 3 0, .add 1 1, .add 2 2]).state
    (LayoutThread.init.run boundedFactory [.add 2 0, .add 3 1, .add 1 2]).state rfl rfl
    (fun c => by
      show (decide (1 = c) || (decide (2 = c) || (decide (3 = c) || false))) =
        (decide (1 = c) || (decide (2 = c) || (decide (3 = c) || false)))
      rfl) rfl rfl (by decide)
  ⟨h.1.trans rfl, rfl, h.2.2.2.symm.trans rfl⟩

end Graphia
